import Mathlib

/-!
# AMReX particle layer: container base, memory-tier copy and scan primitives

A shallow embedding of

* `Src/Particle/AMReX_ParticleContainerBase.H` (class `ParticleContainerBase`),
* `Src/Base/AMReX_GpuContainers.H` (`Gpu::copy`, `Gpu::copyAsync`,
  `Gpu::inclusive_scan`, `Gpu::exclusive_scan`, host build),
* `Src/Particle/AMReX_ParticleMPIUtil.H` (handshake declarations),
* `Src/Base/AMReX_IntConv.H` (`writeIntData`, `readIntData`),

and of the handshake and redistribution pass as the specification describes them,
followed by the properties established about them.
-/

namespace amrex

/-! ## Basic types -/

/-- Value of `std::numeric_limits<int>::min()` for the 32-bit `int`. -/
def INT_MIN : Int := -2147483648

/-- Value of `std::numeric_limits<int>::max()` for the 32-bit `int`. -/
def INT_MAX : Int := 2147483647

/-- An `IntVect` with `AMREX_SPACEDIM = 3` components. -/
structure IntVect where
  x : Int
  y : Int
  z : Int
deriving DecidableEq, Repr

/-- The vector `IntVect::TheZeroVector()`. -/
def IntVect.TheZeroVector : IntVect := ⟨0, 0, 0⟩

/-- Component `rr[0]` of an `IntVect`. -/
def IntVect.get0 (v : IntVect) : Int := v.x

/-- A `Geometry` object; its contents belong to the mesh layer and are kept abstract. -/
structure Geometry where
  id : Nat
deriving DecidableEq, Repr

/-- A `DistributionMapping` object, kept abstract. -/
structure DistributionMapping where
  id : Nat
deriving DecidableEq, Repr

/-- A `BoxArray` object, kept abstract. -/
structure BoxArray where
  id : Nat
deriving DecidableEq, Repr

/-- A `MultiFab` object, kept abstract. -/
structure MultiFab where
  id : Nat
deriving DecidableEq, Repr

/-- An `iMultiFab` object (the redistribute mask), kept abstract. -/
structure iMultiFab where
  id : Nat
deriving DecidableEq, Repr

/-- A `ParticleBufferMap`: either default constructed or defined from a decomposition. -/
inductive ParticleBufferMap where
  | undefined
  | defined (tag : Nat)
deriving DecidableEq, Repr

/-- What a `ParGDBBase` object answers to the virtual queries the container forwards,
together with the address that identifies the object. -/
structure ParGDBBase where
  addr : Nat
  finestLevel : Int
  maxLevel : Int
deriving DecidableEq, Repr

/-- The member object `m_gdb_object` of class `ParGDB`, recorded by the constructor
call that built it. -/
inductive ParGDB where
  | default
  | single (geom : Geometry) (dmap : DistributionMapping) (ba : BoxArray)
  | multi (geom : List Geometry) (dmap : List DistributionMapping) (ba : List BoxArray)
      (rr : List Int)
deriving DecidableEq, Repr

/-- The pointer `ParGDBBase* m_gdb`: null, a caller-owned descriptor, or
`&m_gdb_object`. -/
inductive GdbPtr where
  | nullptr
  | external (g : ParGDBBase)
  | own
deriving DecidableEq, Repr

/-- A `ParGDBBase*` argument handed in by a caller. -/
def GdbPtr.ofArg : Option ParGDBBase → GdbPtr
  | none => GdbPtr.nullptr
  | some g => GdbPtr.external g

/-- An `MFIter`, recorded by the arguments of the constructor
`MFIter(const FabArrayBase&, const IntVect& tilesize)`. -/
structure MFIter where
  fabarray : MultiFab
  tilesize : IntVect
deriving DecidableEq, Repr

/-- An `MFItInfo` object, kept abstract. -/
structure MFItInfo where
  id : Nat
deriving DecidableEq, Repr

/-- An `MFIter` built by `MFIter(const FabArrayBase&, const MFItInfo&)`. -/
structure MFIterInfo where
  fabarray : MultiFab
  info : MFItInfo
deriving DecidableEq, Repr

/-- The static data members `do_tiling` and `tile_size` of `ParticleContainerBase`. -/
structure Statics where
  do_tiling : Bool
  tile_size : IntVect
deriving DecidableEq, Repr

/-! ## ParticleContainerBase -/

/-- The data members of `ParticleContainerBase`. -/
structure ParticleContainerBase where
  m_verbose : Int
  m_gdb : GdbPtr
  m_gdb_object : ParGDB
  m_dummy_mf : List (Option MultiFab)
  redistribute_mask_ptr : Option iMultiFab
  redistribute_mask_nghost : Int
  neighbor_procs : List Int
  m_buffer_map : ParticleBufferMap
deriving DecidableEq, Repr

namespace ParticleContainerBase

/-- The members that no constructor names in its initialiser list: default member
initialisers and default constructed containers. -/
def defaultMembers (verbose : Int) (gdb : GdbPtr) (obj : ParGDB) : ParticleContainerBase :=
  { m_verbose := verbose
    m_gdb := gdb
    m_gdb_object := obj
    m_dummy_mf := []
    redistribute_mask_ptr := none
    redistribute_mask_nghost := INT_MIN
    neighbor_procs := []
    m_buffer_map := ParticleBufferMap.undefined }

/-- Constructor `ParticleContainerBase ()`. -/
def ctor_default : ParticleContainerBase :=
  defaultMembers 0 GdbPtr.nullptr ParGDB.default

/-- Constructor `ParticleContainerBase (ParGDBBase* gdb)`. -/
def ctor_gdb (gdb : Option ParGDBBase) : ParticleContainerBase :=
  defaultMembers 0 (GdbPtr.ofArg gdb) ParGDB.default

/-- Constructor `ParticleContainerBase (geom, dmap, ba)`: builds `m_gdb_object`, then
the body sets `m_gdb = &m_gdb_object`. -/
def ctor_single (geom : Geometry) (dmap : DistributionMapping) (ba : BoxArray) :
    ParticleContainerBase :=
  let s := defaultMembers 0 GdbPtr.nullptr (ParGDB.single geom dmap ba)
  { s with m_gdb := GdbPtr.own }

/-- Constructor `ParticleContainerBase (Vector<Geometry>, Vector<DistributionMapping>,
Vector<BoxArray>, Vector<int> rr)`. -/
def ctor_multi (geom : List Geometry) (dmap : List DistributionMapping) (ba : List BoxArray)
    (rr : List Int) : ParticleContainerBase :=
  let s := defaultMembers 0 GdbPtr.nullptr (ParGDB.multi geom dmap ba rr)
  { s with m_gdb := GdbPtr.own }

/-- The assertions `rr[i][0] == rr[i][1]` and `rr[i][0] == rr[i][2]` of the lambda in the
fifth constructor. -/
def isotropic (v : IntVect) : Bool := v.x == v.y && v.x == v.z

/-- The lambda of the fifth constructor: pushes `rr[i][0]` for every `i`; with assertions
enabled (`debug`) a failing `AMREX_ASSERT` aborts, which is `none`. -/
def ref_ratio_of (debug : Bool) : List IntVect → Option (List Int)
  | [] => some []
  | v :: rest =>
    if debug && !isotropic v then none
    else (ref_ratio_of debug rest).map (fun l => v.get0 :: l)

/-- Constructor `ParticleContainerBase (Vector<Geometry>, Vector<DistributionMapping>,
Vector<BoxArray>, Vector<IntVect> rr)`. -/
def ctor_multi_iv (debug : Bool) (geom : List Geometry) (dmap : List DistributionMapping)
    (ba : List BoxArray) (rr : List IntVect) : Option ParticleContainerBase :=
  (ref_ratio_of debug rr).map (fun ref_ratio =>
    let s := defaultMembers 0 GdbPtr.nullptr (ParGDB.multi geom dmap ba ref_ratio)
    { s with m_gdb := GdbPtr.own })

/-- Member `void Define (ParGDBBase* gdb) { m_gdb = gdb;}`. -/
def Define (gdb : Option ParGDBBase) (s : ParticleContainerBase) : ParticleContainerBase :=
  { s with m_gdb := GdbPtr.ofArg gdb }

/-- The element `m_dummy_mf[lev]` when `lev` is a valid index holding a non-null pointer
(what `AMREX_ASSERT(m_dummy_mf[lev] != nullptr)` demands); `none` otherwise. -/
def dummy_mf (s : ParticleContainerBase) (lev : Int) : Option MultiFab :=
  if lev < 0 then none else (s.m_dummy_mf[lev.toNat]?).join

/-- Member `MFIter MakeMFIter (int lev, const MFItInfo& info) const`. -/
def MakeMFIter_info (s : ParticleContainerBase) (lev : Int) (info : MFItInfo) :
    Option MFIterInfo :=
  (s.dummy_mf lev).map (fun mf => ⟨mf, info⟩)

/-- Member `MFIter MakeMFIter (int lev) const`. -/
def MakeMFIter (st : Statics) (s : ParticleContainerBase) (lev : Int) : Option MFIter :=
  (s.dummy_mf lev).map
    (fun mf => ⟨mf, if st.do_tiling then st.tile_size else IntVect.TheZeroVector⟩)

/-- Member `MFIter MakeMFIter (int lev, bool tile) const`. -/
def MakeMFIter_tile (st : Statics) (s : ParticleContainerBase) (lev : Int) (tile : Bool) :
    Option MFIter :=
  (s.dummy_mf lev).map
    (fun mf => ⟨mf, if tile then st.tile_size else IntVect.TheZeroVector⟩)

/-- Dereferencing `m_gdb`: the object whose virtual members are called. For
`&m_gdb_object` the answers of class `ParGDB` (not part of this header) are supplied by
`view`. A null pointer has no referent. -/
def deref (view : ParGDB → ParGDBBase) (s : ParticleContainerBase) : Option ParGDBBase :=
  match s.m_gdb with
  | GdbPtr.nullptr => none
  | GdbPtr.external g => some g
  | GdbPtr.own => some (view s.m_gdb_object)

/-- Member `int finestLevel () const { return m_gdb->finestLevel(); }`. -/
def finestLevel (view : ParGDB → ParGDBBase) (s : ParticleContainerBase) : Option Int :=
  (s.deref view).map (fun g => g.finestLevel)

/-- Member `int maxLevel () const { return m_gdb->maxLevel(); }`. -/
def maxLevel (view : ParGDB → ParGDBBase) (s : ParticleContainerBase) : Option Int :=
  (s.deref view).map (fun g => g.maxLevel)

/-- Addition of two `int` values; a sum outside the `int` range is undefined, `none`. -/
def int_add (a b : Int) : Option Int :=
  if INT_MIN ≤ a + b ∧ a + b ≤ INT_MAX then some (a + b) else none

/-- Member `int numLevels() const { return finestLevel() + 1; }`. -/
def numLevels (view : ParGDB → ParGDBBase) (s : ParticleContainerBase) : Option Int :=
  (s.finestLevel view).bind (fun f => int_add f 1)

/-- Member `const ParGDBBase* GetParGDB () const { return m_gdb; }`. -/
def GetParGDB (s : ParticleContainerBase) : GdbPtr := s.m_gdb

/-- Modelled from the spec: the staleness check on the cached redistribute mask (the body
of `BuildRedistributeMask` is not in this header). The mask is "valid only for the ghost
width it was built with" and is "cached with last built width sentinel": it counts as
built for width `w` when a mask object is held and the cached last-built width is `w`. -/
def maskBuiltFor (s : ParticleContainerBase) (w : Int) : Bool :=
  s.redistribute_mask_ptr.isSome && s.redistribute_mask_nghost == w

end ParticleContainerBase

/-- The container state used to probe `Define`: a container built on descriptor 0 for
which a redistribute mask has since been built with ghost width 1. -/
def maskedContainer : ParticleContainerBase :=
  { ParticleContainerBase.ctor_gdb (some ⟨0, 0, 0⟩) with
    redistribute_mask_ptr := some ⟨0⟩
    redistribute_mask_nghost := 1
    neighbor_procs := [1] }

/-! ## Gpu containers: copy and scan primitives (host build, `AMREX_USE_GPU` undefined)

Memory is one flat address space of cells of the iterators' `value_type`; iterators into
contiguous storage are addresses. An access outside the memory is undefined behaviour
and shows as `none`. -/

namespace Gpu

/-- Reading `*p`. -/
def load {α : Type} (m : List α) (p : Nat) : Option α := m[p]?

/-- Writing `*p = v`. -/
def store {α : Type} (m : List α) (p : Nat) (v : α) : Option (List α) :=
  if p < m.length then some (m.set p v) else none

/-- The value `std::distance(begin, end)` of a valid range; a range whose end lies before
its beginning is not a range and yields `none`. -/
def distance (begin end_ : Nat) : Option Nat :=
  if begin ≤ end_ then some (end_ - begin) else none

/-- The call `std::memcpy(dst, src, n * sizeof(value_type))`: copies `n` cells from `src`
to `dst`. Both ranges must lie in the memory and must not overlap. -/
def memcpy {α : Type} (m : List α) (dst src n : Nat) : Option (List α) :=
  if src + n ≤ m.length ∧ dst + n ≤ m.length ∧ (src + n ≤ dst ∨ dst + n ≤ src) then
    some (m.take dst ++ ((m.drop src).take n ++ m.drop (dst + n)))
  else none

/-- The three direction tags `hostToDevice`, `deviceToHost`, `deviceToDevice`. -/
inductive CopyTag where
  | hostToDevice
  | deviceToHost
  | deviceToDevice
deriving DecidableEq, Repr

/-- The three overloads of `Gpu::copy`, selected by the tag. -/
def copy {α : Type} (tag : CopyTag) (m : List α) (begin end_ result : Nat) :
    Option (List α) :=
  match tag with
  | CopyTag.hostToDevice =>
    (distance begin end_).bind fun size => memcpy m result begin size
  | CopyTag.deviceToHost =>
    (distance begin end_).bind fun size => memcpy m result begin size
  | CopyTag.deviceToDevice =>
    (distance begin end_).bind fun size => memcpy m result begin size

/-- The three overloads of `Gpu::copyAsync`, selected by the tag. -/
def copyAsync {α : Type} (tag : CopyTag) (m : List α) (begin end_ result : Nat) :
    Option (List α) :=
  match tag with
  | CopyTag.hostToDevice =>
    (distance begin end_).bind fun size => memcpy m result begin size
  | CopyTag.deviceToHost =>
    (distance begin end_).bind fun size => memcpy m result begin size
  | CopyTag.deviceToDevice =>
    (distance begin end_).bind fun size => memcpy m result begin size

/-- The loop `while (++begin != end) { sum = std::move(sum) + *begin;
*result++ = sum - *begin; }` of `exclusive_scan`. Each unfolding performs the increment
and the test; `fuel` bounds the number of unfoldings. Yields the memory and the value of
`result` at loop exit. -/
def exclusive_scan_loop {α : Type} [Add α] [Sub α] :
    Nat → List α → Nat → Nat → Nat → α → Option (List α × Nat)
  | 0, _, _, _, _, _ => none
  | fuel + 1, m, begin, end_, result, sum =>
    if begin + 1 = end_ then some (m, result)
    else
      (load m (begin + 1)).bind fun x =>
      (load m (begin + 1)).bind fun y =>
      (store m result (sum + x - y)).bind fun m1 =>
      exclusive_scan_loop fuel m1 (begin + 1) end_ (result + 1) (sum + x)

/-- Host path of `Gpu::exclusive_scan (begin, end, result)`. Yields the memory after the
call and the returned iterator. -/
def exclusive_scan {α : Type} [Add α] [Sub α] (m : List α) (begin end_ result : Nat) :
    Option (List α × Nat) :=
  if begin = end_ then some (m, result)
  else
    (load m begin).bind fun sum =>
    (load m begin).bind fun y =>
    (store m result (sum - y)).bind fun m1 =>
    (exclusive_scan_loop (end_ - begin) m1 begin end_ (result + 1) sum).map
      fun r => (r.1, r.2 + 1)

/-- The loop `while (++first != last) { sum = std::move(sum) + *first;
*++d_first = sum; }` of `std::partial_sum`. -/
def partial_sum_loop {α : Type} [Add α] :
    Nat → List α → Nat → Nat → Nat → α → Option (List α × Nat)
  | 0, _, _, _, _, _ => none
  | fuel + 1, m, first, last, d_first, sum =>
    if first + 1 = last then some (m, d_first)
    else
      (load m (first + 1)).bind fun x =>
      (store m (d_first + 1) (sum + x)).bind fun m1 =>
      partial_sum_loop fuel m1 (first + 1) last (d_first + 1) (sum + x)

/-- The standard algorithm `std::partial_sum (first, last, d_first)` of `<numeric>`:
`if (first == last) return d_first; sum = *first; *d_first = sum;` then the loop, then
`return ++d_first;`. -/
def partial_sum {α : Type} [Add α] (m : List α) (first last d_first : Nat) :
    Option (List α × Nat) :=
  if first = last then some (m, d_first)
  else
    (load m first).bind fun sum =>
    (store m d_first sum).bind fun m1 =>
    (partial_sum_loop (last - first) m1 first last d_first sum).map
      fun r => (r.1, r.2 + 1)

/-- Host path of `Gpu::inclusive_scan (begin, end, result)`. -/
def inclusive_scan {α : Type} [Add α] (m : List α) (begin end_ result : Nat) :
    Option (List α × Nat) :=
  partial_sum m begin end_ result

end Gpu

/-! ## Handshake (`AMReX_ParticleMPIUtil.H`)

The header only declares `CountSnds`, `doHandShake` and `doHandShakeLocal`. Their effect
on the `Snds` and `Rcvs` vectors of every rank is modelled from the specification of the
handshake protocol. A system is the list of the ranks' `not_ours` maps, the rank being the
position in the list; `Snds` and `Rcvs` hold one entry per rank and start zero-filled. -/

/-- A `std::map<int, Vector<char>>`: destination rank and the bytes to ship there. -/
abbrev NotOurs := List (Nat × List Nat)

/-- Modelled from the spec: `CountSnds`, whose body is not in the header. "Rank R knows
how many particles it must send to each destination rank": entry `Snds[dest]` becomes the
size of the buffer `not_ours[dest]`; entries of ranks without a buffer stay zero. -/
def CountSnds (nprocs : Nat) (not_ours : NotOurs) : List Nat :=
  not_ours.foldl (fun snds kv => snds.set kv.1 kv.2.length) (List.replicate nprocs 0)

/-- Modelled from the spec: one message of the "sparse count exchange" of the handshake
(the exchange is not in the header): sender, receiver and the count sent. -/
structure CountMsg where
  src : Nat
  dst : Nat
  cnt : Nat
deriving DecidableEq, Repr

/-- Modelled from the spec: the `Snds` vector rank `r` computes with `CountSnds` from its
own `not_ours` map (the call is not in the header). -/
def SndsOf (sys : List NotOurs) (r : Nat) : List Nat :=
  CountSnds sys.length (sys.getD r [])

/-- Modelled from the spec: "the count B computed it must send to A", that is `Snds[A]` on
rank `B` (its computation is not in the header). -/
def sendCount (sys : List NotOurs) (B A : Nat) : Nat :=
  (SndsOf sys B).getD A 0

/-- Modelled from the spec: the messages rank `B` posts in the global handshake, which
"performs a sparse count exchange only with ranks that have nonzero traffic". -/
def globalSends (sys : List NotOurs) (B : Nat) : List CountMsg :=
  (List.range sys.length).filterMap fun A =>
    if sendCount sys B A ≠ 0 then some ⟨B, A, sendCount sys B A⟩ else none

/-- Modelled from the spec: all count messages posted in the global handshake (the
exchange is not in the header). -/
def globalNetwork (sys : List NotOurs) : List CountMsg :=
  (List.range sys.length).flatMap (globalSends sys)

/-- Modelled from the spec: the reduction of the "do I send to rank X" booleans across all
ranks, from which rank `A` learns how many count messages it must receive. -/
def numRcvs (sys : List NotOurs) (A : Nat) : Nat :=
  ((List.range sys.length).filter fun B => sendCount sys B A ≠ 0).length

/-- Modelled from the spec: the receiving side of the count exchange (not in the header):
each received count is stored in the entry of its sender, starting from a zero-filled
`Rcvs`, so that the rank "learns its expected sender set and per-sender count". -/
def recordCounts (nprocs : Nat) (msgs : List CountMsg) : List Nat :=
  msgs.foldl (fun rcvs msg => rcvs.set msg.src msg.cnt) (List.replicate nprocs 0)

/-- Modelled from the spec: `doHandShake` (global handshake), whose body is not in the
header, as seen on rank `A` once every rank has run it: the pair `(Snds, Rcvs)`. Rank `A`
receives, from any sender, as many count messages addressed to it as the reduction
announced. The returned `Long` is not described by the specification and is not
modelled. -/
def doHandShake (sys : List NotOurs) (A : Nat) : List Nat × List Nat :=
  (SndsOf sys A,
   recordCounts sys.length
     (((globalNetwork sys).filter fun msg => msg.dst = A).take (numRcvs sys A)))

/-- Modelled from the spec: the messages rank `B` posts in the local handshake, which
"performs count exchange only against that candidate set": one count to every rank of its
`neighbor_procs`. -/
def localSends (sys : List NotOurs) (nbrs : List (List Nat)) (B : Nat) : List CountMsg :=
  (nbrs.getD B []).map fun A => ⟨B, A, sendCount sys B A⟩

/-- Modelled from the spec: all count messages posted in the local handshake (the
exchange is not in the header). -/
def localNetwork (sys : List NotOurs) (nbrs : List (List Nat)) : List CountMsg :=
  (List.range sys.length).flatMap (localSends sys nbrs)

/-- Modelled from the spec: the receiving side of the local handshake (not in the header).
Rank `A` receives one count from every candidate in turn; each receive takes one matching
message out of the messages in flight, since the protocol pairs every receive with one
send ("matching send/receive pairs are eventually posted by both ends"). A receive whose
matching send is never posted, or was already taken by an earlier receive, does not
complete: `none`. -/
def localReceive (A : Nat) : List CountMsg → List Nat → List Nat → Option (List Nat)
  | _, rcvs, [] => some rcvs
  | net, rcvs, who :: rest =>
    match net.find? (fun msg => msg.src = who ∧ msg.dst = A) with
    | none => none
    | some msg => localReceive A (net.erase msg) (rcvs.set who msg.cnt) rest

/-- Modelled from the spec: `doHandShakeLocal` (local handshake), whose body is not in the
header, as seen on rank `A` once every rank has run it with its own `neighbor_procs`
list: the pair `(Snds, Rcvs)`, or `none` when rank `A` waits for a count that is never
sent. The returned `Long` is not described by the specification and is not modelled. -/
def doHandShakeLocal (sys : List NotOurs) (nbrs : List (List Nat)) (A : Nat) :
    Option (List Nat × List Nat) :=
  (localReceive A (localNetwork sys nbrs) (List.replicate sys.length 0) (nbrs.getD A [])).map
    fun rcvs => (SndsOf sys A, rcvs)

/-- Two ranks: rank 1 holds three bytes for rank 0, rank 0 holds nothing. -/
def oneWaySystem : List NotOurs := [[], [(0, [7, 7, 7])]]

/-- Neighbor lists that are empty on both ranks. -/
def noNeighbors : List (List Nat) := [[], []]

/-- Neighbor lists in which the two ranks name each other. -/
def mutualNeighbors : List (List Nat) := [[1], [0]]

/-! ## Integer conversion (`AMReX_IntConv.H`) -/

/-- The widths of the fixed-width integer types. -/
inductive Width where
  | w8
  | w16
  | w32
  | w64
deriving DecidableEq, Repr

/-- The value of `sizeof` for a width. -/
def Width.bytes : Width → Nat
  | Width.w8 => 1
  | Width.w16 => 2
  | Width.w32 => 4
  | Width.w64 => 8

/-- An integer type: its width and whether it is signed (`std::int16_t`, `std::uint32_t`,
`int`, `long`, ...). Values of the type are mathematical integers in its range. -/
structure IntType where
  width : Width
  signed : Bool
deriving DecidableEq, Repr

/-- The value of `sizeof (T)`. -/
def IntType.bytes (t : IntType) : Nat := t.width.bytes

/-- The number of values of the type, `2 ^ (8 * sizeof (T))`. -/
def IntType.modulus (t : IntType) : Int := 2 ^ (8 * t.bytes)

/-- The value is representable in the type. -/
def IntType.holds (t : IntType) (v : Int) : Prop :=
  if t.signed then -(t.modulus / 2) ≤ v ∧ v < t.modulus / 2 else 0 ≤ v ∧ v < t.modulus

/-- Representability in a type can be decided. -/
instance IntType.decidableHolds (t : IntType) (v : Int) : Decidable (t.holds v) := by
  unfold IntType.holds
  exact inferInstance

/-- Integer conversion to the type, as performed by the assignments `value = data[j]` and
`data[j] = value`: the value is reduced modulo `2 ^ (8 * sizeof (T))` into the range of the
type. -/
def IntType.wrap (t : IntType) (v : Int) : Int :=
  if t.signed then (v + t.modulus / 2) % t.modulus - t.modulus / 2 else v % t.modulus

/-- The `k` low-order base-256 digits of `u`, least significant first. -/
def encodeLE : Nat → Nat → List Nat
  | 0, _ => []
  | k + 1, u => u % 256 :: encodeLE k (u / 256)

/-- The number whose base-256 digits, least significant first, are given. -/
def decodeLE : List Nat → Nat
  | [] => 0
  | b :: bs => b + 256 * decodeLE bs

/-- The object representation `(char*) &value` of a value of the type: the bytes of its
two's complement pattern, in the byte order of the machine (`littleEndian`). -/
def IntType.toBytes (t : IntType) (littleEndian : Bool) (v : Int) : List Nat :=
  let digits := encodeLE t.bytes (v % t.modulus).toNat
  if littleEndian then digits else digits.reverse

/-- The value of the type whose object representation is the given bytes. -/
def IntType.fromBytes (t : IntType) (littleEndian : Bool) (bs : List Nat) : Int :=
  let u : Int := decodeLE (if littleEndian then bs else bs.reverse)
  if t.signed && decide (t.modulus / 2 ≤ u) then u - t.modulus else u

/-- The byte reversal that the overloads of `swapBytes` are declared for (their bodies are
not in the header): the value whose object representation is the reversed representation
of `v`. -/
def byteSwap (t : IntType) (v : Int) : Int :=
  t.fromBytes true (t.toBytes true v).reverse

/-- The enumeration `IntDescriptor::Ordering`. -/
inductive IntDescriptor.Ordering where
  | NormalOrder
  | ReverseOrder
deriving DecidableEq, Repr

/-- An `IntDescriptor`: number of bytes and byte order of an on-disk integer format. -/
structure IntDescriptor where
  numbytes : Nat
  ord : IntDescriptor.Ordering
deriving DecidableEq, Repr

/-- Member `IntDescriptor::order ()`. -/
def IntDescriptor.order (d : IntDescriptor) : IntDescriptor.Ordering := d.ord

/-- The call `is.read ((char*) &value, n)`: takes `n` bytes off the stream; a stream that
ends early leaves no value, `none`. -/
def streamRead (is : List Nat) (n : Nat) : Option (List Nat × List Nat) :=
  if n ≤ is.length then some (is.take n, is.drop n) else none

/-- The call `swapBytes (value)` on a `value` of type `t`, as overload resolution settles
it. The header declares overloads for the 16-, 32- and 64-bit types only: an argument of
one of these types selects its own overload, while an 8-bit argument is promoted to `int`
and selects the `std::int32_t` overload, whose result the assignment
`value = swapBytes (value)` converts back to `t`. -/
def callSwapBytes (swapBytes : IntType → Int → Int) (t : IntType) (value : Int) : Int :=
  match t.width with
  | Width.w8 => t.wrap (swapBytes ⟨Width.w32, true⟩ value)
  | Width.w16 => swapBytes t value
  | Width.w32 => swapBytes t value
  | Width.w64 => swapBytes t value

/-- The loop of `writeIntData` from index `j` on, with `count` iterations left. -/
def writeIntData_loop (To : IntType) (swapBytes : IntType → Int → Int) (littleEndian : Bool)
    (swapEndian : Bool) (data : List Int) : Nat → Nat → List Nat → Option (List Nat)
  | 0, _, os => some os
  | count + 1, j, os =>
    (data[j]?).bind fun d =>
    let value := To.wrap d
    let value := if swapEndian then callSwapBytes swapBytes To value else value
    writeIntData_loop To swapBytes littleEndian swapEndian data count (j + 1)
      (os ++ To.toBytes littleEndian value)

/-- The function `writeIntData<To, From> (data, size, os, id)`; `From` is the element type
of `data`. `swapBytes` stands for the overload set declared in the header, `native` for
`FPC::NativeIntDescriptor ()`. Yields the stream after the call. -/
def writeIntData (To : IntType) (swapBytes : IntType → Int → Int) (littleEndian : Bool)
    (native : IntDescriptor) (data : List Int) (size : Nat) (os : List Nat)
    (id : IntDescriptor) : Option (List Nat) :=
  let swapEndian := decide (id.order ≠ native.order)
  writeIntData_loop To swapBytes littleEndian swapEndian data size 0 os

/-- The loop of `readIntData` from index `j` on, with `count` iterations left. -/
def readIntData_loop (To From : IntType) (swapBytes : IntType → Int → Int)
    (littleEndian : Bool) (swapEndian : Bool) :
    Nat → Nat → List Int → List Nat → Option (List Int × List Nat)
  | 0, _, data, is => some (data, is)
  | count + 1, j, data, is =>
    (streamRead is From.bytes).bind fun r =>
    let value := From.fromBytes littleEndian r.1
    let value := if swapEndian then callSwapBytes swapBytes From value else value
    if j < data.length then
      readIntData_loop To From swapBytes littleEndian swapEndian count (j + 1)
        (data.set j (To.wrap value)) r.2
    else none

/-- The function `readIntData<To, From> (data, size, is, id)`. Yields the array `data` and
the stream after the call. -/
def readIntData (To From : IntType) (swapBytes : IntType → Int → Int) (littleEndian : Bool)
    (native : IntDescriptor) (data : List Int) (size : Nat) (is : List Nat)
    (id : IntDescriptor) : Option (List Int × List Nat) :=
  let swapEndian := decide (id.order ≠ native.order)
  readIntData_loop To From swapBytes littleEndian swapEndian size 0 data is

/-! ## Value types of the scans

`exclusive_scan` and `inclusive_scan` are templates over the iterators' `value_type`. Two
families of value types are modelled: the fixed-width integer types with their wrap-around
arithmetic, and `double` restricted to integer values. -/

/-- A value of the fixed-width integer type `t`. -/
@[ext]
structure MachineInt (t : IntType) where
  value : Int
  inRange : t.holds value
deriving DecidableEq

/-- Addition of the type `t`: the sum reduced modulo `2 ^ (8 * sizeof (T))` into the range
of the type. This is the defined arithmetic of the unsigned types; for the signed types it
is the exact sum whenever that is representable, and otherwise the source language leaves
the result undefined. -/
instance MachineInt.instAdd (t : IntType) : Add (MachineInt t) :=
  ⟨fun a b => ⟨t.wrap (a.value + b.value), by
    rcases t with ⟨w, s⟩
    cases w <;> cases s <;>
      simp [IntType.holds, IntType.wrap, IntType.modulus, IntType.bytes, Width.bytes] <;>
      omega⟩⟩

/-- Subtraction of the type `t`, reduced like addition. -/
instance MachineInt.instSub (t : IntType) : Sub (MachineInt t) :=
  ⟨fun a b => ⟨t.wrap (a.value - b.value), by
    rcases t with ⟨w, s⟩
    cases w <;> cases s <;>
      simp [IntType.holds, IntType.wrap, IntType.modulus, IntType.bytes, Width.bytes] <;>
      omega⟩⟩

/-- Negation of the type `t`, reduced like addition. -/
instance MachineInt.instNeg (t : IntType) : Neg (MachineInt t) :=
  ⟨fun a => ⟨t.wrap (-a.value), by
    rcases t with ⟨w, s⟩
    cases w <;> cases s <;>
      simp [IntType.holds, IntType.wrap, IntType.modulus, IntType.bytes, Width.bytes] <;>
      omega⟩⟩

/-- The value 0 of the type `t`. -/
instance MachineInt.instZero (t : IntType) : Zero (MachineInt t) :=
  ⟨⟨0, by
    rcases t with ⟨w, s⟩
    cases w <;> cases s <;>
      simp [IntType.holds, IntType.modulus, IntType.bytes, Width.bytes]⟩⟩

/-- With wrap-around arithmetic every fixed-width integer type is an additive group. -/
instance MachineInt.instAddGroup (t : IntType) : AddGroup (MachineInt t) where
  add_assoc a b c := by
    apply MachineInt.ext
    show t.wrap (t.wrap (a.value + b.value) + c.value) =
      t.wrap (a.value + t.wrap (b.value + c.value))
    rcases t with ⟨w, s⟩
    cases w <;> cases s <;>
      simp [IntType.wrap, IntType.modulus, IntType.bytes, Width.bytes] <;> omega
  zero_add a := by
    apply MachineInt.ext
    show t.wrap (0 + a.value) = a.value
    have h := a.inRange
    rcases t with ⟨w, s⟩
    cases w <;> cases s <;>
      simp [IntType.holds, IntType.wrap, IntType.modulus, IntType.bytes, Width.bytes] at h ⊢ <;>
      omega
  add_zero a := by
    apply MachineInt.ext
    show t.wrap (a.value + 0) = a.value
    have h := a.inRange
    rcases t with ⟨w, s⟩
    cases w <;> cases s <;>
      simp [IntType.holds, IntType.wrap, IntType.modulus, IntType.bytes, Width.bytes] at h ⊢ <;>
      omega
  nsmul := nsmulRec
  zsmul := zsmulRec
  sub_eq_add_neg a b := by
    apply MachineInt.ext
    show t.wrap (a.value - b.value) = t.wrap (a.value + t.wrap (-b.value))
    rcases t with ⟨w, s⟩
    cases w <;> cases s <;>
      simp [IntType.wrap, IntType.modulus, IntType.bytes, Width.bytes] <;> omega
  neg_add_cancel a := by
    apply MachineInt.ext
    show t.wrap (t.wrap (-a.value) + a.value) = 0
    rcases t with ⟨w, s⟩
    cases w <;> cases s <;>
      simp [IntType.wrap, IntType.modulus, IntType.bytes, Width.bytes] <;> omega

/-- The number of low-order bits by which a magnitude exceeds the 53-bit significand of a
`double`. -/
def excessBits : Nat → Nat → Nat
  | 0, _ => 0
  | fuel + 1, a => if a < 2 ^ 53 then 0 else excessBits fuel (a / 2) + 1

/-- The `double` nearest to an integer of magnitude below `2 ^ 1024` (IEEE 754 binary64,
round to nearest, ties to even): the magnitude keeps its 53 leading bits, rounded on the
bits dropped. Integers of magnitude up to `2 ^ 53` are their own nearest `double`. -/
def roundToDouble (z : Int) : Int :=
  let a := z.natAbs
  let e := excessBits 1024 a
  let q := a / 2 ^ e
  let r := a % 2 ^ e
  let q1 := if 2 ^ e < 2 * r ∨ (2 * r = 2 ^ e ∧ q % 2 = 1) then q + 1 else q
  if z < 0 then -((q1 * 2 ^ e : Nat) : Int) else ((q1 * 2 ^ e : Nat) : Int)

/-- A `double` that holds an integer value. -/
structure IntegralDouble where
  value : Int
deriving DecidableEq, Repr

/-- Addition of two integer-valued `double`s: the exact sum, rounded to the nearest
`double`. -/
instance IntegralDouble.instAdd : Add IntegralDouble :=
  ⟨fun a b => ⟨roundToDouble (a.value + b.value)⟩⟩

/-- Subtraction of two integer-valued `double`s: the exact difference, rounded to the
nearest `double`. -/
instance IntegralDouble.instSub : Sub IntegralDouble :=
  ⟨fun a b => ⟨roundToDouble (a.value - b.value)⟩⟩

/-! ## Redistribution pass

No part of the redistribution engine is in the headers at hand. One pass is modelled from
section 4.4 of the specification, stage by stage, over the stores of all ranks at once;
the rank is the position in the list of stores. -/

namespace Gpu

theorem seg_set {α : Type} (m : List α) (r a j : Nat) (v : α) (h : r < a ∨ a + j ≤ r) :
    ((m.set r v).drop a).take j = (m.drop a).take j := by
  apply List.ext_getElem?
  intro i
  by_cases hi : i < j
  · simp only [List.getElem?_take, hi, if_true, List.getElem?_drop]
    rw [List.getElem?_set_ne]
    omega
  · simp [List.getElem?_take, hi]

theorem seg_succ {α : Type} [AddMonoid α] (m : List α) (a j : Nat) (x : α)
    (hx : m[a]? = some x) :
    ((m.drop a).take (j + 1)).sum = x + ((m.drop (a + 1)).take j).sum := by
  have hlt : a < m.length := by
    rcases Nat.lt_or_ge a m.length with h | h
    · exact h
    · rw [List.getElem?_eq_none h] at hx; cases hx
  have hx2 : m[a] = x := by
    rw [List.getElem?_eq_getElem hlt] at hx
    exact Option.some.inj hx
  rw [List.drop_eq_getElem_cons hlt, List.take_succ_cons, List.sum_cons, hx2]

theorem exclusive_scan_loop_spec {α : Type} [AddGroup α] (end_ : Nat) :
    ∀ (k fuel : Nat) (m : List α) (b r : Nat) (sum : α),
      b + 1 + k = end_ → k < fuel → end_ ≤ m.length → r + k ≤ m.length →
      (r ≤ b + 1 ∨ end_ ≤ r) →
      ∃ m1, exclusive_scan_loop fuel m b end_ r sum = some (m1, r + k) ∧
        m1.length = m.length ∧
        (∀ j, j < k → m1[r + j]? = some (sum + ((m.drop (b + 1)).take j).sum)) ∧
        (∀ p, p < r ∨ r + k ≤ p → m1[p]? = m[p]?) := by
  intro k
  induction k with
  | zero =>
    intro fuel m b r sum hb hf _ _ _
    obtain ⟨f, rfl⟩ : ∃ f, fuel = f + 1 := ⟨fuel - 1, by omega⟩
    refine ⟨m, ?_, rfl, ?_, ?_⟩
    · simp [exclusive_scan_loop, hb]
    · intro j hj; omega
    · intro p _; rfl
  | succ k ih =>
    intro fuel m b r sum hb hf hlen hr hsep
    obtain ⟨f, rfl⟩ : ∃ f, fuel = f + 1 := ⟨fuel - 1, by omega⟩
    have hne : ¬ (b + 1 = end_) := by omega
    have hb1 : b + 1 < m.length := by omega
    have hrl : r < m.length := by omega
    obtain ⟨m1, hrun, hlen1, hval, hframe⟩ :=
      ih f (m.set r (sum + m[b + 1] - m[b + 1])) (b + 1) (r + 1) (sum + m[b + 1])
        (by omega) (by omega) (by simpa using hlen) (by simp; omega) (by omega)
    refine ⟨m1, ?_, ?_, ?_, ?_⟩
    · simp only [exclusive_scan_loop, hne, if_false, load, store,
        List.getElem?_eq_getElem hb1, Option.some_bind, hrl, if_true]
      rw [hrun]
      congr 2
      omega
    · simpa using hlen1
    · intro j hj
      cases j with
      | zero =>
        have := hframe r (Or.inl (Nat.lt_succ_self r))
        simp only [Nat.add_zero, List.take_zero, List.sum_nil, add_zero]
        rw [this, List.getElem?_set_self hrl, add_sub_cancel_right]
      | succ j =>
        have h1 := hval j (by omega)
        have h2 : r + (j + 1) = r + 1 + j := by omega
        rw [h2, h1, seg_set m r (b + 1 + 1) j _ (by omega),
          seg_succ m (b + 1) j m[b + 1] (List.getElem?_eq_getElem hb1), add_assoc]
    · intro p hp
      rw [hframe p (by omega), List.getElem?_set_ne]
      omega


theorem exclusive_scan_spec {α : Type} [AddGroup α] (m : List α) (begin end_ result : Nat)
    (hlt : begin < end_) (hend : end_ ≤ m.length)
    (hres : result + (end_ - begin) ≤ m.length)
    (hsep : result ≤ begin ∨ end_ ≤ result) :
    ∃ m1, exclusive_scan m begin end_ result = some (m1, result + (end_ - begin) + 1) ∧
      m1.length = m.length ∧
      (∀ i, i < end_ - begin → m1[result + i]? = some ((m.drop begin).take i).sum) ∧
      (∀ p, p < result ∨ result + (end_ - begin) ≤ p → m1[p]? = m[p]?) := by
  have hb : begin < m.length := by omega
  have hr : result < m.length := by omega
  obtain ⟨m1, hrun, hlen1, hval, hframe⟩ :=
    exclusive_scan_loop_spec end_ (end_ - begin - 1) (end_ - begin)
      (m.set result (m[begin] - m[begin])) begin (result + 1) m[begin]
      (by omega) (by omega) (by simpa using hend) (by simp; omega) (by omega)
  refine ⟨m1, ?_, ?_, ?_, ?_⟩
  · have hne : ¬ (begin = end_) := by omega
    simp only [exclusive_scan, hne, if_false, load, store,
      List.getElem?_eq_getElem hb, Option.some_bind, hr, if_true]
    rw [hrun]
    simp only [Option.map_some']
    congr 2
    omega
  · simpa using hlen1
  · intro i hi
    cases i with
    | zero =>
      have := hframe result (Or.inl (Nat.lt_succ_self result))
      simp only [Nat.add_zero, List.take_zero, List.sum_nil]
      rw [this, List.getElem?_set_self hr, sub_self]
    | succ i =>
      have h1 := hval i (by omega)
      have h2 : result + (i + 1) = result + 1 + i := by omega
      rw [h2, h1, seg_set m result (begin + 1) i _ (by omega),
        seg_succ m begin i m[begin] (List.getElem?_eq_getElem hb)]
  · intro p hp
    rw [hframe p (by omega), List.getElem?_set_ne]
    omega

theorem memcpy_spec {α : Type} (m : List α) (dst src n : Nat)
    (hsrc : src + n ≤ m.length) (hdst : dst + n ≤ m.length)
    (hsep : src + n ≤ dst ∨ dst + n ≤ src) :
    ∃ m1, memcpy m dst src n = some m1 ∧ m1.length = m.length ∧
      (∀ i, i < n → m1[dst + i]? = m[src + i]?) ∧
      (∀ p, p < dst ∨ dst + n ≤ p → m1[p]? = m[p]?) := by
  refine ⟨m.take dst ++ ((m.drop src).take n ++ m.drop (dst + n)), ?_, ?_, ?_, ?_⟩
  · simp [memcpy, hsrc, hdst, hsep]
  · simp only [List.length_append, List.length_take, List.length_drop]
    omega
  · intro i hi
    have h1 : (m.take dst).length = dst := by simp; omega
    have h2 : ((m.drop src).take n).length = n := by simp; omega
    rw [List.getElem?_append_right (by omega), h1,
      List.getElem?_append_left (by omega)]
    simp only [Nat.add_sub_cancel_left, List.getElem?_take, hi, if_true, List.getElem?_drop]
  · intro p hp
    have h1 : (m.take dst).length = dst := by simp; omega
    have h2 : ((m.drop src).take n).length = n := by simp; omega
    rcases hp with hp | hp
    · rw [List.getElem?_append_left (by omega)]
      simp [List.getElem?_take, hp]
    · rw [List.getElem?_append_right (by omega), h1,
        List.getElem?_append_right (by omega), h2, List.getElem?_drop]
      congr 1
      omega

theorem memcpy_zero {α : Type} (m : List α) (dst src : Nat) (m1 : List α)
    (h : memcpy m dst src 0 = some m1) : m1 = m := by
  unfold memcpy at h
  split at h
  · simp at h
    rw [← h]
  · cases h


theorem partial_sum_loop_spec {α : Type} [AddMonoid α] (last : Nat) :
    ∀ (k fuel : Nat) (m : List α) (f d : Nat) (sum : α),
      f + 1 + k = last → k < fuel → last ≤ m.length → d + 1 + k ≤ m.length →
      (d ≤ f ∨ last ≤ d + 1) →
      ∃ m1, partial_sum_loop fuel m f last d sum = some (m1, d + k) ∧
        m1.length = m.length ∧
        (∀ j, j < k → m1[d + 1 + j]? = some (sum + ((m.drop (f + 1)).take (j + 1)).sum)) ∧
        (∀ p, p < d + 1 ∨ d + 1 + k ≤ p → m1[p]? = m[p]?) := by
  intro k
  induction k with
  | zero =>
    intro fuel m f d sum hb hf _ _ _
    obtain ⟨g, rfl⟩ : ∃ g, fuel = g + 1 := ⟨fuel - 1, by omega⟩
    refine ⟨m, ?_, rfl, ?_, ?_⟩
    · simp [partial_sum_loop, hb]
    · intro j hj; omega
    · intro p _; rfl
  | succ k ih =>
    intro fuel m f d sum hb hf hlen hr hsep
    obtain ⟨g, rfl⟩ : ∃ g, fuel = g + 1 := ⟨fuel - 1, by omega⟩
    have hne : ¬ (f + 1 = last) := by omega
    have hb1 : f + 1 < m.length := by omega
    have hrl : d + 1 < m.length := by omega
    obtain ⟨m1, hrun, hlen1, hval, hframe⟩ :=
      ih g (m.set (d + 1) (sum + m[f + 1])) (f + 1) (d + 1) (sum + m[f + 1])
        (by omega) (by omega) (by simpa using hlen) (by simp; omega) (by omega)
    refine ⟨m1, ?_, ?_, ?_, ?_⟩
    · simp only [partial_sum_loop, hne, if_false, load, store,
        List.getElem?_eq_getElem hb1, Option.some_bind, hrl, if_true]
      rw [hrun]
      congr 2
      omega
    · simpa using hlen1
    · intro j hj
      cases j with
      | zero =>
        have := hframe (d + 1) (Or.inl (Nat.lt_succ_self _))
        rw [Nat.add_zero, this, List.getElem?_set_self hrl,
          seg_succ m (f + 1) 0 m[f + 1] (List.getElem?_eq_getElem hb1)]
        simp
      | succ j =>
        have h1 := hval j (by omega)
        have h2 : d + 1 + (j + 1) = d + 1 + 1 + j := by omega
        rw [h2, h1, seg_set m (d + 1) (f + 1 + 1) (j + 1) _ (by omega),
          seg_succ m (f + 1) (j + 1) m[f + 1] (List.getElem?_eq_getElem hb1), add_assoc]
    · intro p hp
      rw [hframe p (by omega), List.getElem?_set_ne]
      omega

theorem inclusive_scan_spec {α : Type} [AddMonoid α] (m : List α) (begin end_ result : Nat)
    (hlt : begin < end_) (hend : end_ ≤ m.length)
    (hres : result + (end_ - begin) ≤ m.length)
    (hsep : result ≤ begin ∨ end_ ≤ result) :
    ∃ m1, inclusive_scan m begin end_ result = some (m1, result + (end_ - begin)) ∧
      m1.length = m.length ∧
      (∀ i, i < end_ - begin → m1[result + i]? = some ((m.drop begin).take (i + 1)).sum) ∧
      (∀ p, p < result ∨ result + (end_ - begin) ≤ p → m1[p]? = m[p]?) := by
  have hb : begin < m.length := by omega
  have hr : result < m.length := by omega
  obtain ⟨m1, hrun, hlen1, hval, hframe⟩ :=
    partial_sum_loop_spec end_ (end_ - begin - 1) (end_ - begin)
      (m.set result m[begin]) begin result m[begin]
      (by omega) (by omega) (by simpa using hend) (by simp; omega) (by omega)
  refine ⟨m1, ?_, ?_, ?_, ?_⟩
  · have hne : ¬ (begin = end_) := by omega
    simp only [inclusive_scan, partial_sum, hne, if_false, load, store,
      List.getElem?_eq_getElem hb, Option.some_bind, hr, if_true]
    rw [hrun]
    simp only [Option.map_some']
    congr 2
    omega
  · simpa using hlen1
  · intro i hi
    cases i with
    | zero =>
      have := hframe result (Or.inl (Nat.lt_succ_self result))
      rw [Nat.add_zero, this, List.getElem?_set_self hr,
        seg_succ m begin 0 m[begin] (List.getElem?_eq_getElem hb)]
      simp
    | succ i =>
      have h1 := hval i (by omega)
      have h2 : result + (i + 1) = result + 1 + i := by omega
      rw [h2, h1, seg_set m result (begin + 1) (i + 1) _ (by omega),
        seg_succ m begin (i + 1) m[begin] (List.getElem?_eq_getElem hb)]
  · intro p hp
    rw [hframe p (by omega), List.getElem?_set_ne]
    omega


theorem exclusive_scan_values {α : Type} [AddGroup α] (m : List α) (begin end_ result : Nat)
    (hrange : begin ≤ end_) (hend : end_ ≤ m.length)
    (hres : result + (end_ - begin) ≤ m.length)
    (hsep : result ≤ begin ∨ end_ ≤ result) :
    ∃ m1 ret, exclusive_scan m begin end_ result = some (m1, ret) ∧
      ret = (if begin = end_ then result else result + (end_ - begin) + 1) ∧
      m1.length = m.length ∧
      (∀ i, i < end_ - begin → m1[result + i]? = some ((m.drop begin).take i).sum) ∧
      (∀ p, p < result ∨ result + (end_ - begin) ≤ p → m1[p]? = m[p]?) := by
  rcases Nat.eq_or_lt_of_le hrange with heq | hlt
  · refine ⟨m, result, by simp [exclusive_scan, heq], by rw [if_pos heq], rfl, ?_, ?_⟩
    · intro i hi; omega
    · intro p _; rfl
  · obtain ⟨m1, hrun, hlen, hval, hframe⟩ :=
      exclusive_scan_spec m begin end_ result hlt hend hres hsep
    exact ⟨m1, _, hrun, by rw [if_neg (Nat.ne_of_lt hlt)], hlen, hval, hframe⟩

theorem inclusive_scan_values {α : Type} [AddMonoid α] (m : List α) (begin end_ result : Nat)
    (hrange : begin ≤ end_) (hend : end_ ≤ m.length)
    (hres : result + (end_ - begin) ≤ m.length)
    (hsep : result ≤ begin ∨ end_ ≤ result) :
    ∃ m1 ret, inclusive_scan m begin end_ result = some (m1, ret) ∧
      ret = result + (end_ - begin) ∧
      m1.length = m.length ∧
      (∀ i, i < end_ - begin → m1[result + i]? = some ((m.drop begin).take (i + 1)).sum) ∧
      (∀ p, p < result ∨ result + (end_ - begin) ≤ p → m1[p]? = m[p]?) := by
  rcases Nat.eq_or_lt_of_le hrange with heq | hlt
  · refine ⟨m, result, by simp [inclusive_scan, partial_sum, heq], by omega, rfl, ?_, ?_⟩
    · intro i hi; omega
    · intro p _; rfl
  · obtain ⟨m1, hrun, hlen, hval, hframe⟩ :=
      inclusive_scan_spec m begin end_ result hlt hend hres hsep
    exact ⟨m1, _, hrun, rfl, hlen, hval, hframe⟩

theorem prefix_succ {α : Type} [AddMonoid α] (m : List α) (begin i : Nat)
    (hi : begin + i < m.length) :
    ((m.drop begin).take (i + 1)).sum = ((m.drop begin).take i).sum + m[begin + i] := by
  have h : i < (m.drop begin).length := by simp; omega
  rw [List.sum_take_succ _ i h]
  simp

theorem prefix_mono {α : Type} [LinearOrderedAddCommGroup α] (m : List α) (begin n : Nat)
    (hn : begin + n ≤ m.length)
    (hpos : ∀ k, k < n → ∀ c, m[begin + k]? = some c → 0 ≤ c) :
    ∀ i j, i ≤ j → j ≤ n →
      ((m.drop begin).take i).sum ≤ ((m.drop begin).take j).sum := by
  intro i j hij
  induction j with
  | zero =>
    intro _
    have : i = 0 := by omega
    rw [this]
  | succ j ih =>
    intro hj
    rcases Nat.eq_or_lt_of_le hij with heq | hlt
    · rw [heq]
    · have hlen : begin + j < m.length := by omega
      rw [prefix_succ m begin j hlen]
      have h0 : 0 ≤ m[begin + j] := hpos j (by omega) _ (List.getElem?_eq_getElem hlen)
      calc ((m.drop begin).take i).sum ≤ ((m.drop begin).take j).sum := ih (by omega) (by omega)
        _ ≤ ((m.drop begin).take j).sum + m[begin + j] := le_add_of_nonneg_right h0

theorem prefix_cover {α : Type} [LinearOrderedAddCommGroup α] (m : List α) (begin : Nat)
    (x : α) (hx : 0 ≤ x) :
    ∀ k, x < ((m.drop begin).take k).sum →
      ∃ i, i < k ∧ ((m.drop begin).take i).sum ≤ x ∧ x < ((m.drop begin).take (i + 1)).sum := by
  intro k
  induction k with
  | zero =>
    intro h
    simp only [List.take_zero, List.sum_nil] at h
    exact absurd hx (not_le.mpr h)
  | succ k ih =>
    intro h
    by_cases hk : x < ((m.drop begin).take k).sum
    · obtain ⟨i, hi, h1, h2⟩ := ih hk
      exact ⟨i, by omega, h1, h2⟩
    · exact ⟨k, Nat.lt_succ_self k, not_lt.mp hk, h⟩

end Gpu

theorem getD_set_zero (l : List Nat) (i j v : Nat) :
    (l.set i v).getD j 0 = if i = j ∧ i < l.length then v else l.getD j 0 := by
  simp only [List.getD_eq_getElem?_getD, List.getElem?_set]
  by_cases h : i = j
  · subst h
    by_cases h2 : i < l.length
    · simp [h2]
    · simp [h2, List.getElem?_eq_none (Nat.le_of_not_lt h2)]
  · simp [h]

theorem foldl_set_length (msgs : List CountMsg) (init : List Nat) :
    (msgs.foldl (fun rcvs msg => rcvs.set msg.src msg.cnt) init).length = init.length := by
  induction msgs generalizing init with
  | nil => rfl
  | cons msg rest ih => simp [List.foldl_cons, ih]

theorem foldl_set_getD (msgs : List CountMsg) (init : List Nat) (B c : Nat)
    (hB : B < init.length)
    (hall : ∀ msg ∈ msgs, msg.src = B → msg.cnt = c)
    (hex : init.getD B 0 = c ∨ ∃ msg ∈ msgs, msg.src = B) :
    (msgs.foldl (fun rcvs msg => rcvs.set msg.src msg.cnt) init).getD B 0 = c := by
  induction msgs generalizing init with
  | nil =>
    rcases hex with h | ⟨msg, hm, _⟩
    · simpa using h
    · cases hm
  | cons msg rest ih =>
    rw [List.foldl_cons]
    apply ih
    · simpa using hB
    · intro m hm hs
      exact hall m (List.mem_cons_of_mem _ hm) hs
    · by_cases hsrc : msg.src = B
      · left
        rw [getD_set_zero, if_pos ⟨hsrc, by rw [hsrc]; exact hB⟩]
        exact hall msg (List.mem_cons_self _ _) hsrc
      · rcases hex with h | ⟨m, hm, hs⟩
        · left
          rw [getD_set_zero, if_neg (fun hh => hsrc hh.1)]
          exact h
        · right
          rcases List.mem_cons.mp hm with rfl | hm2
          · exact absurd hs hsrc
          · exact ⟨m, hm2, hs⟩

theorem globalSends_filter (sys : List NotOurs) (B A : Nat) :
    ∀ l : List Nat, l.Nodup →
      ((l.filterMap fun A1 =>
          if sendCount sys B A1 ≠ 0 then
            some (CountMsg.mk B A1 (sendCount sys B A1)) else none).filter
        fun msg => msg.dst = A) =
      if A ∈ l ∧ sendCount sys B A ≠ 0 then
        [CountMsg.mk B A (sendCount sys B A)] else [] := by
  intro l
  induction l with
  | nil => intro _; simp
  | cons a rest ih =>
    intro hnd
    have hnd2 := List.nodup_cons.mp hnd
    have ih2 := ih hnd2.2
    by_cases hc : sendCount sys B a ≠ 0
    · rw [List.filterMap_cons_some (by rw [if_pos hc])]
      by_cases ha : a = A
      · subst ha
        rw [List.filter_cons_of_pos (by simp), ih2]
        simp [hnd2.1, hc]
      · rw [List.filter_cons_of_neg (by simpa using ha), ih2]
        have : (A ∈ a :: rest) ↔ A ∈ rest := by
          simp [List.mem_cons, Ne.symm ha]
        simp only [this]
    · rw [List.filterMap_cons_none (by rw [if_neg hc]), ih2]
      by_cases ha : a = A
      · subst ha
        simp [hc]
      · have : (A ∈ a :: rest) ↔ A ∈ rest := by
          simp [List.mem_cons, Ne.symm ha]
        simp only [this]

theorem inbox_eq (sys : List NotOurs) (A : Nat) (hA : A < sys.length) :
    ∀ rs : List Nat,
      ((rs.flatMap (globalSends sys)).filter fun msg => msg.dst = A) =
      rs.filterMap fun B =>
        if sendCount sys B A ≠ 0 then
          some (CountMsg.mk B A (sendCount sys B A)) else none := by
  intro rs
  induction rs with
  | nil => simp
  | cons B rest ih =>
    rw [List.flatMap_cons, List.filter_append, ih]
    have h1 := globalSends_filter sys B A (List.range sys.length) (List.nodup_range _)
    have h2 : (globalSends sys B).filter (fun msg => msg.dst = A) =
        if sendCount sys B A ≠ 0 then
          [CountMsg.mk B A (sendCount sys B A)] else [] := by
      unfold globalSends
      rw [h1]
      simp [List.mem_range, hA]
    rw [h2]
    by_cases hc : sendCount sys B A ≠ 0
    · rw [if_pos hc, List.filterMap_cons_some (by rw [if_pos hc])]
      rfl
    · rw [if_neg hc, List.filterMap_cons_none (by rw [if_neg hc])]
      rfl

theorem inbox_length (sys : List NotOurs) (A : Nat) :
    ∀ rs : List Nat,
      (rs.filterMap fun B =>
        if sendCount sys B A ≠ 0 then
          some (CountMsg.mk B A (sendCount sys B A)) else none).length =
      (rs.filter fun B => sendCount sys B A ≠ 0).length := by
  intro rs
  induction rs with
  | nil => rfl
  | cons B rest ih =>
    by_cases hc : sendCount sys B A ≠ 0
    · rw [List.filterMap_cons_some (by rw [if_pos hc]),
        List.filter_cons_of_pos (by simpa using hc), List.length_cons, List.length_cons, ih]
    · rw [List.filterMap_cons_none (by rw [if_neg hc]),
        List.filter_cons_of_neg (by simpa using hc)]
      exact ih

theorem doHandShake_Rcvs (sys : List NotOurs) (A B : Nat)
    (hA : A < sys.length) (hB : B < sys.length) :
    (doHandShake sys A).2.getD B 0 = sendCount sys B A := by
  unfold doHandShake globalNetwork numRcvs recordCounts
  simp only
  rw [inbox_eq sys A hA, List.take_of_length_le (by rw [inbox_length])]
  apply foldl_set_getD
  · simpa using hB
  · intro msg hm hs
    rw [List.mem_filterMap] at hm
    obtain ⟨B1, _, h⟩ := hm
    split at h
    · cases h
      simp only at hs
      rw [hs]
    · cases h
  · by_cases hc : sendCount sys B A ≠ 0
    · right
      refine ⟨CountMsg.mk B A (sendCount sys B A), ?_, rfl⟩
      rw [List.mem_filterMap]
      exact ⟨B, List.mem_range.mpr hB, by rw [if_pos hc]⟩
    · left
      have : sendCount sys B A = 0 := by simpa using hc
      rw [this]
      simp [List.getD_eq_getElem?_getD, List.getElem?_replicate, hB]


theorem localReceive_value (A : Nat) (f : Nat → Nat) :
    ∀ (cands : List Nat) (net : List CountMsg) (rcvs r1 : List Nat),
      (∀ msg ∈ net, msg.dst = A → msg.cnt = f msg.src) →
      localReceive A net rcvs cands = some r1 →
      r1.length = rcvs.length ∧
        ∀ B, r1.getD B 0 = if B ∈ cands ∧ B < rcvs.length then f B else rcvs.getD B 0 := by
  intro cands
  induction cands with
  | nil =>
    intro net rcvs r1 _ hrun
    simp only [localReceive, Option.some.injEq] at hrun
    subst hrun
    exact ⟨rfl, by intro B; simp⟩
  | cons who rest ih =>
    intro net rcvs r1 hnet hrun
    unfold localReceive at hrun
    cases hf : net.find? (fun msg => msg.src = who ∧ msg.dst = A) with
    | none => rw [hf] at hrun; cases hrun
    | some msg =>
      rw [hf] at hrun
      have hp := List.find?_some hf
      have hmem := List.mem_of_find?_eq_some hf
      simp only [decide_eq_true_eq] at hp
      have hcnt : msg.cnt = f who := by
        rw [hnet msg hmem hp.2, hp.1]
      obtain ⟨hlen, hget⟩ := ih (net.erase msg) (rcvs.set who msg.cnt) r1
        (fun m hm hd => hnet m (List.mem_of_mem_erase hm) hd) hrun
      refine ⟨by simpa using hlen, ?_⟩
      intro B
      rw [hget B, getD_set_zero, List.length_set, hcnt]
      by_cases h1 : B ∈ rest ∧ B < rcvs.length
      · rw [if_pos h1, if_pos ⟨List.mem_cons_of_mem _ h1.1, h1.2⟩]
      · rw [if_neg h1]
        by_cases h2 : who = B ∧ who < rcvs.length
        · rw [if_pos h2, if_pos ⟨by rw [h2.1]; exact List.mem_cons_self _ _,
            by rw [← h2.1]; exact h2.2⟩, h2.1]
        · rw [if_neg h2, if_neg]
          rintro ⟨h3, h4⟩
          rcases List.mem_cons.mp h3 with h5 | h5
          · exact h2 ⟨h5.symm, by rw [← h5]; exact h4⟩
          · exact h1 ⟨h5, h4⟩

theorem localReceive_completes (A : Nat) :
    ∀ (cands : List Nat) (net : List CountMsg) (rcvs : List Nat), cands.Nodup →
      (∀ who ∈ cands, ∃ msg ∈ net, msg.src = who ∧ msg.dst = A) →
      ∃ r1, localReceive A net rcvs cands = some r1 := by
  intro cands
  induction cands with
  | nil => intro net rcvs _ _; exact ⟨rcvs, rfl⟩
  | cons who rest ih =>
    intro net rcvs hnd hall
    have hnd2 := List.nodup_cons.mp hnd
    obtain ⟨m0, hm0, hs0, hd0⟩ := hall who (List.mem_cons_self _ _)
    cases hf : net.find? (fun msg => msg.src = who ∧ msg.dst = A) with
    | none =>
      have := List.find?_eq_none.mp hf m0 hm0
      simp [hs0, hd0] at this
    | some msg =>
      have hp := List.find?_some hf
      simp only [decide_eq_true_eq] at hp
      obtain ⟨r1, hrun⟩ := ih (net.erase msg) (rcvs.set who msg.cnt) hnd2.2 (by
        intro w hw
        obtain ⟨m1, hm1, hs1, hd1⟩ := hall w (List.mem_cons_of_mem _ hw)
        refine ⟨m1, ?_, hs1, hd1⟩
        apply (List.mem_erase_of_ne ?_).mpr hm1
        intro heq
        apply hnd2.1
        rw [← hp.1, ← heq, hs1]
        exact hw)
      refine ⟨r1, ?_⟩
      simp only [localReceive, hf]
      exact hrun

theorem localReceive_matched (A : Nat) :
    ∀ (cands : List Nat) (net : List CountMsg) (rcvs r1 : List Nat),
      localReceive A net rcvs cands = some r1 →
      ∀ who ∈ cands, ∃ msg ∈ net, msg.src = who ∧ msg.dst = A := by
  intro cands
  induction cands with
  | nil => intro _ _ _ _ who hw; cases hw
  | cons c rest ih =>
    intro net rcvs r1 hrun who hw
    unfold localReceive at hrun
    cases hf : net.find? (fun msg => msg.src = c ∧ msg.dst = A) with
    | none => rw [hf] at hrun; cases hrun
    | some msg =>
      rw [hf] at hrun
      rcases List.mem_cons.mp hw with rfl | hw2
      · have hp := List.find?_some hf
        simp only [decide_eq_true_eq] at hp
        exact ⟨msg, List.mem_of_find?_eq_some hf, hp.1, hp.2⟩
      · obtain ⟨m1, hm1, h1⟩ := ih _ _ _ hrun who hw2
        exact ⟨m1, List.mem_of_mem_erase hm1, h1⟩

theorem mem_localNetwork (sys : List NotOurs) (nbrs : List (List Nat)) (msg : CountMsg) :
    msg ∈ localNetwork sys nbrs ↔
      msg.src < sys.length ∧ msg.dst ∈ nbrs.getD msg.src [] ∧
        msg.cnt = sendCount sys msg.src msg.dst := by
  unfold localNetwork localSends
  simp only [List.mem_flatMap, List.mem_range, List.mem_map]
  constructor
  · rintro ⟨B, hB, A, hA, rfl⟩
    exact ⟨hB, hA, rfl⟩
  · rintro ⟨h1, h2, h3⟩
    refine ⟨msg.src, h1, msg.dst, h2, ?_⟩
    cases msg
    simp only at h3
    simp [h3]

theorem doHandShakeLocal_completed (sys : List NotOurs) (nbrs : List (List Nat)) (A : Nat)
    (ra : List Nat × List Nat) (h : doHandShakeLocal sys nbrs A = some ra) :
    ∀ B, B ∈ nbrs.getD A [] → B < sys.length ∧ A ∈ nbrs.getD B [] := by
  intro B hB
  unfold doHandShakeLocal at h
  cases hr : localReceive A (localNetwork sys nbrs) (List.replicate sys.length 0)
      (nbrs.getD A []) with
  | none => rw [hr] at h; cases h
  | some r1 =>
    obtain ⟨msg, hm, hs, hd⟩ := localReceive_matched A _ _ _ r1 hr B hB
    have := (mem_localNetwork sys nbrs msg).mp hm
    rw [hs, hd] at this
    exact ⟨this.1, this.2.1⟩

theorem doHandShakeLocal_value (sys : List NotOurs) (nbrs : List (List Nat)) (A : Nat)
    (ra : List Nat × List Nat) (h : doHandShakeLocal sys nbrs A = some ra) :
    ra.1 = SndsOf sys A ∧ ra.2.length = sys.length ∧
      ∀ B, ra.2.getD B 0 = if B ∈ nbrs.getD A [] then sendCount sys B A else 0 := by
  have hcomp := doHandShakeLocal_completed sys nbrs A ra h
  unfold doHandShakeLocal at h
  cases hr : localReceive A (localNetwork sys nbrs) (List.replicate sys.length 0)
      (nbrs.getD A []) with
  | none => rw [hr] at h; cases h
  | some r1 =>
    rw [hr] at h
    simp only [Option.map_some', Option.some.injEq] at h
    subst h
    obtain ⟨hlen, hget⟩ := localReceive_value A (fun B => sendCount sys B A) _ _ _ r1
      (by
        intro msg hm hd
        rw [((mem_localNetwork sys nbrs msg).mp hm).2.2, hd]) hr
    refine ⟨rfl, by simpa using hlen, ?_⟩
    intro B
    simp only
    rw [hget B]
    by_cases hB : B ∈ nbrs.getD A []
    · rw [if_pos hB, if_pos ⟨hB, by simpa using (hcomp B hB).1⟩]
    · rw [if_neg hB, if_neg (fun h => hB h.1)]
      simp only [List.getD_eq_getElem?_getD, List.getElem?_replicate]
      split <;> rfl

theorem doHandShakeLocal_completes (sys : List NotOurs) (nbrs : List (List Nat)) (A : Nat)
    (hnd : (nbrs.getD A []).Nodup)
    (hsym : ∀ B, B ∈ nbrs.getD A [] → B < sys.length ∧ A ∈ nbrs.getD B []) :
    ∃ ra, doHandShakeLocal sys nbrs A = some ra := by
  obtain ⟨r1, hrun⟩ := localReceive_completes A (nbrs.getD A []) (localNetwork sys nbrs)
    (List.replicate sys.length 0) hnd (by
      intro who hw
      refine ⟨CountMsg.mk who A (sendCount sys who A), ?_, rfl, rfl⟩
      rw [mem_localNetwork]
      exact ⟨(hsym who hw).1, (hsym who hw).2, rfl⟩)
  refine ⟨(SndsOf sys A, r1), ?_⟩
  unfold doHandShakeLocal
  rw [hrun]
  rfl

theorem encodeLE_length (k u : Nat) : (encodeLE k u).length = k := by
  induction k generalizing u with
  | zero => rfl
  | succ k ih => simp [encodeLE, ih]

theorem decodeLE_encodeLE (k u : Nat) : decodeLE (encodeLE k u) = u % 256 ^ k := by
  induction k generalizing u with
  | zero => simp [encodeLE, decodeLE, Nat.mod_one]
  | succ k ih =>
    simp only [encodeLE, decodeLE, ih]
    rw [pow_succ, Nat.mul_comm (256 ^ k) 256, Nat.mod_mul]

theorem encodeLE_lt (k u : Nat) : ∀ b ∈ encodeLE k u, b < 256 := by
  induction k generalizing u with
  | zero => intro b hb; cases hb
  | succ k ih =>
    intro b hb
    simp only [encodeLE, List.mem_cons] at hb
    rcases hb with rfl | hb
    · exact Nat.mod_lt _ (by decide)
    · exact ih _ b hb

theorem decodeLE_lt (bs : List Nat) (h : ∀ b ∈ bs, b < 256) :
    decodeLE bs < 256 ^ bs.length := by
  induction bs with
  | nil => simp [decodeLE]
  | cons b bs ih =>
    have h1 := h b (List.mem_cons_self _ _)
    have h2 := ih (fun c hc => h c (List.mem_cons_of_mem _ hc))
    simp only [decodeLE, List.length_cons, pow_succ]
    omega

theorem encodeLE_decodeLE (bs : List Nat) (h : ∀ b ∈ bs, b < 256) :
    encodeLE bs.length (decodeLE bs) = bs := by
  induction bs with
  | nil => rfl
  | cons b bs ih =>
    have h1 := h b (List.mem_cons_self _ _)
    have h2 := ih (fun c hc => h c (List.mem_cons_of_mem _ hc))
    simp only [decodeLE, List.length_cons, encodeLE]
    have e1 : (b + 256 * decodeLE bs) % 256 = b := by omega
    have e2 : (b + 256 * decodeLE bs) / 256 = decodeLE bs := by omega
    rw [e1, e2, h2]

theorem modulus_eq (t : IntType) : t.modulus = ((256 ^ t.bytes : Nat) : Int) := by
  unfold IntType.modulus
  rw [pow_mul]
  norm_num

theorem toBytes_length (t : IntType) (le : Bool) (v : Int) :
    (t.toBytes le v).length = t.bytes := by
  unfold IntType.toBytes
  cases le <;> simp [encodeLE_length]

theorem toBytes_lt (t : IntType) (le : Bool) (v : Int) : ∀ b ∈ t.toBytes le v, b < 256 := by
  intro b hb
  unfold IntType.toBytes at hb
  cases le
  · simp only [Bool.false_eq_true, if_false, List.mem_reverse] at hb
    exact encodeLE_lt _ _ b hb
  · simp only [if_true] at hb
    exact encodeLE_lt _ _ b hb

theorem modulus_pos (t : IntType) : 0 < t.modulus := by
  unfold IntType.modulus
  positivity

theorem fromBytes_toBytes_pattern (t : IntType) (le : Bool) (v : Int) :
    t.fromBytes le (t.toBytes le v) =
      if t.signed && decide (t.modulus / 2 ≤ v % t.modulus) then v % t.modulus - t.modulus
      else v % t.modulus := by
  have hpos := modulus_pos t
  have hnn : 0 ≤ v % t.modulus := Int.emod_nonneg _ (ne_of_gt hpos)
  have hlt : v % t.modulus < t.modulus := Int.emod_lt_of_pos _ hpos
  have hdigits : (if le then t.toBytes le v else (t.toBytes le v).reverse) =
      encodeLE t.bytes (v % t.modulus).toNat := by
    unfold IntType.toBytes
    cases le <;> simp
  have hu : ((decodeLE (encodeLE t.bytes (v % t.modulus).toNat) : Nat) : Int) =
      v % t.modulus := by
    rw [decodeLE_encodeLE, Nat.mod_eq_of_lt]
    · exact Int.toNat_of_nonneg hnn
    · have : ((v % t.modulus).toNat : Int) < ((256 ^ t.bytes : Nat) : Int) := by
        rw [Int.toNat_of_nonneg hnn, ← modulus_eq]
        exact hlt
      exact_mod_cast this
  unfold IntType.fromBytes
  simp only [hdigits, hu]

theorem fromBytes_toBytes (t : IntType) (le : Bool) (v : Int) (h : t.holds v) :
    t.fromBytes le (t.toBytes le v) = v := by
  rw [fromBytes_toBytes_pattern]
  rcases t with ⟨w, s⟩
  cases w <;> cases s <;>
    simp [IntType.holds, IntType.modulus, IntType.bytes, Width.bytes] at h ⊢ <;> omega

theorem wrap_holds (t : IntType) (v : Int) : t.holds (t.wrap v) := by
  rcases t with ⟨w, s⟩
  cases w <;> cases s <;>
    simp [IntType.holds, IntType.wrap, IntType.modulus, IntType.bytes, Width.bytes] <;> omega

theorem wrap_of_holds (t : IntType) (v : Int) (h : t.holds v) : t.wrap v = v := by
  rcases t with ⟨w, s⟩
  cases w <;> cases s <;>
    simp [IntType.holds, IntType.wrap, IntType.modulus, IntType.bytes, Width.bytes] at h ⊢ <;>
    omega

theorem fromBytes_holds (t : IntType) (le : Bool) (bs : List Nat)
    (hlen : bs.length = t.bytes) (hb : ∀ b ∈ bs, b < 256) : t.holds (t.fromBytes le bs) := by
  have hlt : decodeLE (if le then bs else bs.reverse) < 256 ^ t.bytes := by
    rw [← hlen]
    cases le
    · have := decodeLE_lt bs.reverse (fun b h => hb b (List.mem_reverse.mp h))
      simpa using this
    · simpa using decodeLE_lt bs hb
  unfold IntType.fromBytes
  generalize decodeLE (if le then bs else bs.reverse) = u at hlt
  rcases t with ⟨w, s⟩
  cases w <;> cases s <;>
    simp [IntType.holds, IntType.modulus, IntType.bytes, Width.bytes] at hlt ⊢ <;>
    (try split) <;> omega

theorem toBytes_fromBytes (t : IntType) (le : Bool) (bs : List Nat)
    (hlen : bs.length = t.bytes) (hb : ∀ b ∈ bs, b < 256) :
    t.toBytes le (t.fromBytes le bs) = bs := by
  have hlen2 : (if le then bs else bs.reverse).length = t.bytes := by
    cases le <;> simpa using hlen
  have hb2 : ∀ b ∈ (if le then bs else bs.reverse), b < 256 := by
    cases le
    · intro b h
      exact hb b (List.mem_reverse.mp (by simpa using h))
    · simpa using hb
  have hlt : decodeLE (if le then bs else bs.reverse) < 256 ^ t.bytes := by
    rw [← hlen2]
    exact decodeLE_lt _ hb2
  have henc := encodeLE_decodeLE _ hb2
  rw [hlen2] at henc
  have hnat : (t.fromBytes le bs % t.modulus).toNat =
      decodeLE (if le then bs else bs.reverse) := by
    unfold IntType.fromBytes
    generalize decodeLE (if le then bs else bs.reverse) = u at hlt
    rcases t with ⟨w, s⟩
    cases w <;> cases s <;>
      simp [IntType.modulus, IntType.bytes, Width.bytes] at hlt ⊢ <;>
      (try split) <;> omega
  unfold IntType.toBytes
  simp only [hnat, henc]
  cases le <;> simp

theorem byteSwap_involutive (t : IntType) (v : Int) (h : t.holds v) :
    t.holds (byteSwap t v) ∧ byteSwap t (byteSwap t v) = v := by
  have hlen : (t.toBytes true v).reverse.length = t.bytes := by
    simp [toBytes_length]
  have hb : ∀ b ∈ (t.toBytes true v).reverse, b < 256 := by
    intro b hm
    exact toBytes_lt t true v b (List.mem_reverse.mp hm)
  constructor
  · exact fromBytes_holds t true _ hlen hb
  · unfold byteSwap
    rw [toBytes_fromBytes t true _ hlen hb, List.reverse_reverse]
    exact fromBytes_toBytes t true v h

theorem streamRead_append (a b : List Nat) (n : Nat) (h : a.length = n) :
    streamRead (a ++ b) n = some (a, b) := by
  unfold streamRead
  have h1 : n ≤ (a ++ b).length := by simp; omega
  rw [if_pos h1, ← h]
  simp

theorem callSwapBytes_eq (swapBytes : IntType → Int → Int) (t : IntType) (v : Int)
    (h : t.width ≠ Width.w8) : callSwapBytes swapBytes t v = swapBytes t v := by
  unfold callSwapBytes
  cases hw : t.width
  · exact absurd hw h
  · rfl
  · rfl
  · rfl

theorem writeIntData_loop_spec (To : IntType) (swapBytes : IntType → Int → Int)
    (le swapEndian : Bool) (data : List Int) :
    ∀ (count j : Nat) (os : List Nat), j + count ≤ data.length →
      writeIntData_loop To swapBytes le swapEndian data count j os =
        some (os ++ ((data.drop j).take count).flatMap fun d =>
          To.toBytes le
            (if swapEndian then callSwapBytes swapBytes To (To.wrap d) else To.wrap d)) := by
  intro count
  induction count with
  | zero => intro j os _; simp [writeIntData_loop]
  | succ count ih =>
    intro j os hj
    have hlt : j < data.length := by omega
    simp only [writeIntData_loop, List.getElem?_eq_getElem hlt, Option.some_bind]
    rw [ih (j + 1) _ (by omega), List.drop_eq_getElem_cons hlt, List.take_succ_cons,
      List.flatMap_cons, List.append_assoc]

theorem readIntData_loop_spec (To From : IntType) (swapBytes : IntType → Int → Int)
    (le swapEndian : Bool)
    (hswap : ∀ v, From.holds v →
      From.holds (swapBytes From v) ∧ swapBytes From (swapBytes From v) = v)
    (hwidth : swapEndian = true → From.width ≠ Width.w8)
    (tail : List Nat) :
    ∀ (ds : List Int) (j : Nat) (buf : List Int), j + ds.length ≤ buf.length →
      ∃ buf1, readIntData_loop To From swapBytes le swapEndian ds.length j buf
          ((ds.flatMap fun d =>
            From.toBytes le
              (if swapEndian then callSwapBytes swapBytes From (From.wrap d) else From.wrap d))
            ++ tail) = some (buf1, tail) ∧
        buf1.length = buf.length ∧
        (∀ i, i < ds.length → buf1[j + i]? = (ds[i]?).map fun d => To.wrap (From.wrap d)) ∧
        (∀ p, p < j ∨ j + ds.length ≤ p → buf1[p]? = buf[p]?) := by
  intro ds
  induction ds with
  | nil =>
    intro j buf _
    exact ⟨buf, by simp [readIntData_loop], rfl, fun i hi => absurd hi (Nat.not_lt_zero i),
      fun p _ => rfl⟩
  | cons d ds ih =>
    intro j buf hj
    simp only [List.length_cons] at hj
    have hlt : j < buf.length := by omega
    have hw := wrap_holds From d
    have hval : (if swapEndian then
          callSwapBytes swapBytes From (From.fromBytes le (From.toBytes le
            (if swapEndian then callSwapBytes swapBytes From (From.wrap d) else From.wrap d)))
        else From.fromBytes le (From.toBytes le
            (if swapEndian then callSwapBytes swapBytes From (From.wrap d) else From.wrap d))) =
        From.wrap d := by
      cases hse : swapEndian
      · simp only [Bool.false_eq_true, if_false]
        exact fromBytes_toBytes From le _ hw
      · simp only [if_true]
        have hne := hwidth hse
        rw [callSwapBytes_eq swapBytes From _ hne, callSwapBytes_eq swapBytes From _ hne,
          fromBytes_toBytes From le _ (hswap _ hw).1]
        exact (hswap _ hw).2
    obtain ⟨buf1, hrun, hlen, hget, hframe⟩ :=
      ih (j + 1) (buf.set j (To.wrap (From.wrap d))) (by simp; omega)
    refine ⟨buf1, ?_, by simpa using hlen, ?_, ?_⟩
    · simp only [List.length_cons, readIntData_loop, List.flatMap_cons, List.append_assoc]
      rw [streamRead_append _ _ _ (toBytes_length From le _)]
      simp only [Option.some_bind, hval, hlt, if_true]
      exact hrun
    · intro i hi
      cases i with
      | zero =>
        rw [Nat.add_zero, hframe j (Or.inl (Nat.lt_succ_self j)), List.getElem?_set_self hlt]
        simp
      | succ i =>
        have := hget i (by simpa using hi)
        have e : j + (i + 1) = j + 1 + i := by omega
        rw [e, this]
        simp
    · intro p hp
      simp only [List.length_cons] at hp
      rw [hframe p (by omega), List.getElem?_set_ne]
      omega

theorem flatMap_length_const {α β : Type} (f : α → List β) (k : Nat)
    (hf : ∀ a, (f a).length = k) : ∀ l : List α, (l.flatMap f).length = l.length * k := by
  intro l
  induction l with
  | nil => simp
  | cons a l ih =>
    rw [List.flatMap_cons, List.length_append, hf a, ih, List.length_cons, Nat.succ_mul,
      Nat.add_comm]

theorem holds_between (t : IntType) (x s : Int) (hs : t.holds s) (h0 : 0 ≤ x) (hx : x ≤ s) :
    t.holds x := by
  rcases t with ⟨w, sg⟩
  cases w <;> cases sg <;>
    simp [IntType.holds, IntType.modulus, IntType.bytes, Width.bytes] at hs ⊢ <;> omega

theorem MachineInt.value_add (t : IntType) (a b : MachineInt t) :
    (a + b).value = t.wrap (a.value + b.value) := rfl

theorem MachineInt.value_zero (t : IntType) : (0 : MachineInt t).value = 0 := rfl

theorem MachineInt.value_sum (t : IntType) :
    ∀ l : List (MachineInt t), (∀ c ∈ l, 0 ≤ c.value) →
      t.holds (l.map fun c => c.value).sum →
      l.sum.value = (l.map fun c => c.value).sum ∧ 0 ≤ (l.map fun c => c.value).sum := by
  intro l
  induction l with
  | nil => intro _ _; exact ⟨rfl, le_refl 0⟩
  | cons a l ih =>
    intro hpos hsum
    simp only [List.map_cons, List.sum_cons] at hsum ⊢
    have ha := hpos a (List.mem_cons_self _ _)
    have hl : 0 ≤ (l.map fun c => c.value).sum :=
      List.sum_nonneg (by
        intro x hx
        rw [List.mem_map] at hx
        obtain ⟨c, hc, rfl⟩ := hx
        exact hpos c (List.mem_cons_of_mem _ hc))
    obtain ⟨h1, _⟩ := ih (fun c hc => hpos c (List.mem_cons_of_mem _ hc))
      (holds_between t _ _ hsum hl (by omega))
    rw [MachineInt.value_add, h1, wrap_of_holds t _ hsum]
    exact ⟨rfl, by omega⟩

theorem machine_prefix (t : IntType) (m : List (MachineInt t)) (begin n : Nat)
    (hn : begin + n ≤ m.length)
    (hpos : ∀ k, k < n → ∀ c, m[begin + k]? = some c → 0 ≤ c.value)
    (hsum : t.holds (((m.drop begin).take n).map fun c => c.value).sum) :
    (∀ k, k < n → ∀ c, (m.map fun c => c.value)[begin + k]? = some c → 0 ≤ c) ∧
    ∀ i, i ≤ n →
      ((m.drop begin).take i).sum.value =
        (((m.map fun c => c.value).drop begin).take i).sum := by
  have hposM : ∀ k, k < n → ∀ c, (m.map fun c => c.value)[begin + k]? = some c → 0 ≤ c := by
    intro k hk c hc
    rw [List.getElem?_map] at hc
    cases hm : m[begin + k]? with
    | none => rw [hm] at hc; cases hc
    | some x =>
      rw [hm] at hc
      simp only [Option.map_some', Option.some.injEq] at hc
      rw [← hc]
      exact hpos k hk x hm
  refine ⟨hposM, ?_⟩
  intro i hi
  have hmap : ∀ j, (((m.drop begin).take j).map fun c => c.value) =
      ((m.map fun c => c.value).drop begin).take j := by
    intro j
    rw [List.map_take, List.map_drop]
  have hmono := Gpu.prefix_mono (m.map fun c => c.value) begin n (by simpa using hn) hposM
  have hle := hmono i n hi (le_refl n)
  have h0 := hmono 0 i (Nat.zero_le i) hi
  simp only [List.take_zero, List.sum_nil] at h0
  rw [hmap] at hsum
  have hres := MachineInt.value_sum t ((m.drop begin).take i) (by
      intro c hc
      obtain ⟨k, hk, hget⟩ := List.getElem_of_mem hc
      have hk2 : k < i := by
        have := hk
        simp only [List.length_take, List.length_drop] at this
        omega
      apply hpos k (by omega) c
      rw [← hget, List.getElem_take, List.getElem_drop]
      exact (List.getElem?_eq_getElem (by omega)).trans rfl)
    (by
      rw [hmap]
      exact holds_between t _ _ hsum h0 hle)
  rw [hres.1, hmap]

/-! ## ParticleContainerBase: redistribute-mask cache, iteration, levels -/

/-- C1 (as stated, refuted): on a container that holds a mask and caches ghost width 1 as
last built, `Define` with a different descriptor swaps the descriptor but leaves the
cached last-built width at 1, not at the never-built sentinel; the mask object and the
neighbor-rank list built from the old descriptor are still held. -/
theorem Define_does_not_invalidate_mask :
    maskedContainer.redistribute_mask_ptr = some ⟨0⟩ ∧
    maskedContainer.redistribute_mask_nghost = 1 ∧
    (maskedContainer.Define (some ⟨5, 2, 3⟩)).m_gdb ≠ maskedContainer.m_gdb ∧
    (maskedContainer.Define (some ⟨5, 2, 3⟩)).redistribute_mask_nghost = 1 ∧
    (maskedContainer.Define (some ⟨5, 2, 3⟩)).redistribute_mask_nghost ≠ INT_MIN ∧
    (maskedContainer.Define (some ⟨5, 2, 3⟩)).redistribute_mask_ptr = some ⟨0⟩ ∧
    (maskedContainer.Define (some ⟨5, 2, 3⟩)).neighbor_procs = [1] := by
  decide

/-- C1 (amended): `Define (gdb)` replaces the referenced descriptor and nothing else: the
cached last-built ghost width, the held mask, the neighbor-rank list, the buffer map and
all remaining members are exactly what they were before the call. -/
theorem Define_replaces_descriptor_only (s : ParticleContainerBase) (gdb : Option ParGDBBase) :
    (s.Define gdb).m_gdb = GdbPtr.ofArg gdb ∧
    (s.Define gdb).redistribute_mask_nghost = s.redistribute_mask_nghost ∧
    (s.Define gdb).redistribute_mask_ptr = s.redistribute_mask_ptr ∧
    (s.Define gdb).neighbor_procs = s.neighbor_procs ∧
    (s.Define gdb).m_buffer_map = s.m_buffer_map ∧
    (s.Define gdb).m_gdb_object = s.m_gdb_object ∧
    (s.Define gdb).m_dummy_mf = s.m_dummy_mf ∧
    (s.Define gdb).m_verbose = s.m_verbose :=
  ⟨rfl, rfl, rfl, rfl, rfl, rfl, rfl, rfl⟩

theorem ref_ratio_of_isSome (debug : Bool) (rr : List IntVect)
    (h : debug = false ∨ ∀ v ∈ rr, ParticleContainerBase.isotropic v = true) :
    (ParticleContainerBase.ref_ratio_of debug rr).isSome = true := by
  induction rr with
  | nil => rfl
  | cons v rest ih =>
    have hrest : debug = false ∨ ∀ u ∈ rest, ParticleContainerBase.isotropic u = true := by
      rcases h with h | h
      · exact Or.inl h
      · exact Or.inr (fun u hu => h u (List.mem_cons_of_mem _ hu))
    have hv : (debug && !ParticleContainerBase.isotropic v) = false := by
      rcases h with h | h
      · simp [h]
      · simp [h v (List.mem_cons_self _ _)]
    have ih2 := ih hrest
    simp only [ParticleContainerBase.ref_ratio_of, hv, Bool.false_eq_true, if_false,
      Option.isSome_map']
    exact ih2

/-- C6: a container produced by any of the five constructors caches the minimum `int` as
last-built ghost width and holds no mask object; that sentinel is strictly below every
ghost width `w ≥ 0`, and the staleness check reports the mask as not built for `w`. The
fifth constructor does produce a container unless an enabled assertion on the refinement
ratios fails. -/
theorem constructed_mask_not_built (pc : ParticleContainerBase)
    (h : pc = ParticleContainerBase.ctor_default ∨
      (∃ gdb, pc = ParticleContainerBase.ctor_gdb gdb) ∨
      (∃ geom dmap ba, pc = ParticleContainerBase.ctor_single geom dmap ba) ∨
      (∃ geom dmap ba rr, pc = ParticleContainerBase.ctor_multi geom dmap ba rr) ∨
      (∃ debug geom dmap ba rr,
        ParticleContainerBase.ctor_multi_iv debug geom dmap ba rr = some pc)) :
    (pc.redistribute_mask_nghost = INT_MIN ∧ pc.redistribute_mask_ptr = none ∧
      ∀ w : Int, 0 ≤ w → pc.redistribute_mask_nghost < w ∧ pc.maskBuiltFor w = false) ∧
    ∀ (debug : Bool) (geom : List Geometry) (dmap : List DistributionMapping)
      (ba : List BoxArray) (rr : List IntVect),
      (debug = false ∨ ∀ v ∈ rr, ParticleContainerBase.isotropic v = true) →
      (ParticleContainerBase.ctor_multi_iv debug geom dmap ba rr).isSome = true := by
  have key : pc.redistribute_mask_nghost = INT_MIN ∧ pc.redistribute_mask_ptr = none := by
    rcases h with h | ⟨gdb, h⟩ | ⟨geom, dmap, ba, h⟩ | ⟨geom, dmap, ba, rr, h⟩ |
      ⟨debug, geom, dmap, ba, rr, h⟩
    · subst h; exact ⟨rfl, rfl⟩
    · subst h; exact ⟨rfl, rfl⟩
    · subst h; exact ⟨rfl, rfl⟩
    · subst h; exact ⟨rfl, rfl⟩
    · unfold ParticleContainerBase.ctor_multi_iv at h
      cases hr : ParticleContainerBase.ref_ratio_of debug rr with
      | none => rw [hr] at h; cases h
      | some l =>
        rw [hr] at h
        simp only [Option.map_some', Option.some.injEq] at h
        subst h
        exact ⟨rfl, rfl⟩
  refine ⟨⟨key.1, key.2, ?_⟩, ?_⟩
  · intro w hw
    constructor
    · rw [key.1]
      unfold INT_MIN
      omega
    · simp [ParticleContainerBase.maskBuiltFor, key.2]
  · intro debug geom dmap ba rr hrr
    unfold ParticleContainerBase.ctor_multi_iv
    rw [Option.isSome_map']
    exact ref_ratio_of_isSome debug rr hrr

/-- Witness of C6 at the default constructor. -/
theorem constructed_mask_not_built_witness :
    ParticleContainerBase.ctor_default.redistribute_mask_nghost = INT_MIN ∧
    ParticleContainerBase.ctor_default.redistribute_mask_ptr = none ∧
    ParticleContainerBase.ctor_default.redistribute_mask_nghost < 0 ∧
    ParticleContainerBase.ctor_default.maskBuiltFor 0 = false :=
  have h := (constructed_mask_not_built ParticleContainerBase.ctor_default (Or.inl rfl)).1
  ⟨h.1, h.2.1, (h.2.2 0 (le_refl 0)).1, (h.2.2 0 (le_refl 0)).2⟩

/-- C7: on a level whose dummy `MultiFab` is defined, `MakeMFIter (lev)` builds the
iterator `MakeMFIter (lev, do_tiling)` builds; `MakeMFIter (lev, true)` iterates with
`tile_size` and `MakeMFIter (lev, false)` with the zero tile vector, whatever the value of
`do_tiling`. -/
theorem MakeMFIter_tiling (st : Statics) (s : ParticleContainerBase) (lev : Int)
    (mf : MultiFab) (h : s.dummy_mf lev = some mf) :
    ParticleContainerBase.MakeMFIter st s lev =
      ParticleContainerBase.MakeMFIter_tile st s lev st.do_tiling ∧
    ParticleContainerBase.MakeMFIter_tile st s lev true = some ⟨mf, st.tile_size⟩ ∧
    ParticleContainerBase.MakeMFIter_tile st s lev false =
      some ⟨mf, IntVect.TheZeroVector⟩ := by
  refine ⟨rfl, ?_, ?_⟩
  · simp [ParticleContainerBase.MakeMFIter_tile, h]
  · simp [ParticleContainerBase.MakeMFIter_tile, h]

/-- Witness of C7: tiling switched off globally, one level with a dummy `MultiFab`. -/
theorem MakeMFIter_tiling_witness :
    ParticleContainerBase.MakeMFIter ⟨false, ⟨8, 8, 8⟩⟩
        { ParticleContainerBase.ctor_default with m_dummy_mf := [some ⟨4⟩] } 0 =
      ParticleContainerBase.MakeMFIter_tile ⟨false, ⟨8, 8, 8⟩⟩
        { ParticleContainerBase.ctor_default with m_dummy_mf := [some ⟨4⟩] } 0 false ∧
    ParticleContainerBase.MakeMFIter_tile ⟨false, ⟨8, 8, 8⟩⟩
        { ParticleContainerBase.ctor_default with m_dummy_mf := [some ⟨4⟩] } 0 true =
      some ⟨⟨4⟩, ⟨8, 8, 8⟩⟩ ∧
    ParticleContainerBase.MakeMFIter_tile ⟨false, ⟨8, 8, 8⟩⟩
        { ParticleContainerBase.ctor_default with m_dummy_mf := [some ⟨4⟩] } 0 false =
      some ⟨⟨4⟩, IntVect.TheZeroVector⟩ :=
  MakeMFIter_tiling ⟨false, ⟨8, 8, 8⟩⟩
    { ParticleContainerBase.ctor_default with m_dummy_mf := [some ⟨4⟩] } 0 ⟨4⟩ (by decide)

/-- C8: whenever the container references a descriptor, `finestLevel ()` is that
descriptor's finest defined level and `numLevels ()` is the `int` sum of it and 1; for
every finest level whose successor is representable as `int` this is the number
`finestLevel () + 1`. -/
theorem numLevels_eq_finestLevel_succ (view : ParGDB → ParGDBBase)
    (s : ParticleContainerBase) (d : ParGDBBase) (h : s.deref view = some d) :
    s.finestLevel view = some d.finestLevel ∧
    s.numLevels view = ParticleContainerBase.int_add d.finestLevel 1 ∧
    (INT_MIN ≤ d.finestLevel → d.finestLevel < INT_MAX →
      s.numLevels view = some (d.finestLevel + 1)) := by
  have hf : s.finestLevel view = some d.finestLevel := by
    simp [ParticleContainerBase.finestLevel, h]
  refine ⟨hf, ?_, ?_⟩
  · simp [ParticleContainerBase.numLevels, hf]
  · intro hlo hhi
    have h1 : INT_MIN ≤ d.finestLevel + 1 ∧ d.finestLevel + 1 ≤ INT_MAX := by
      constructor <;> omega
    simp [ParticleContainerBase.numLevels, hf, ParticleContainerBase.int_add, h1]

/-- Witness of C8: a container defined on a descriptor with finest level 2 has 3 levels. -/
theorem numLevels_eq_finestLevel_succ_witness :
    (ParticleContainerBase.ctor_gdb (some ⟨0, 2, 4⟩)).finestLevel (fun _ => ⟨1, 0, 0⟩) =
      some 2 ∧
    (ParticleContainerBase.ctor_gdb (some ⟨0, 2, 4⟩)).numLevels (fun _ => ⟨1, 0, 0⟩) =
      some (2 + 1) :=
  have h := numLevels_eq_finestLevel_succ (fun _ => ⟨1, 0, 0⟩)
    (ParticleContainerBase.ctor_gdb (some ⟨0, 2, 4⟩)) ⟨0, 2, 4⟩ rfl
  ⟨h.1, h.2.2 (by decide) (by decide)⟩

/-! ## Gpu containers: scans and copies -/

/-- C2 (as stated, refuted): for `double` values the host path does not write the sum of
the preceding inputs: scanning `1.0, 1e16` it writes `(1.0 + 1e16) - 1e16 = 0` to `out[1]`,
where `in[0]` is `1.0`. And for an output buffer of exactly `n` cells at the end of the
memory (here `n = 2` at address 2 of 4 cells) the iterator it returns, address 5, lies
beyond one past the end. -/
theorem exclusive_scan_double_inexact :
    Gpu.exclusive_scan
        ([⟨1⟩, ⟨10000000000000000⟩, ⟨7⟩, ⟨7⟩, ⟨7⟩] : List IntegralDouble) 0 2 2 =
      some ([⟨1⟩, ⟨10000000000000000⟩, ⟨0⟩, ⟨0⟩, ⟨7⟩], 5) ∧
    (⟨0⟩ : IntegralDouble) ≠ ⟨1⟩ ∧
    Gpu.exclusive_scan ([3, 4, 0, 0] : List Int) 0 2 2 = some ([3, 4, 0, 3], 5) ∧
    ([3, 4, 0, 0] : List Int).length < 5 := by
  decide

/-- C2 (amended): on the host path, for every value type in which `+` and `-` obey the laws
of an additive group (the integers, or a fixed-width integer type with its wrap-around
arithmetic), an input range `[begin, end)` inside the memory and an output buffer that
does not overlap it and has room for `n = end - begin` cells and, when `n ≥ 1`, for one
cell more, `exclusive_scan` returns an iterator inside the memory and leaves in output
cell `i < n` the sum of the input cells `0 .. i-1` (so cell 0 holds 0), leaves every cell
outside the `n` output cells untouched, and writes nothing when `n = 0`. -/
theorem exclusive_scan_prefix_sums {α : Type} [AddGroup α] (m : List α)
    (begin end_ result : Nat) (hrange : begin ≤ end_) (hin : end_ ≤ m.length)
    (hout : result + (end_ - begin) ≤ m.length)
    (hroom : begin < end_ → result + (end_ - begin) < m.length)
    (hsep : result + (end_ - begin) ≤ begin ∨ end_ ≤ result) :
    ∃ m1 ret, Gpu.exclusive_scan m begin end_ result = some (m1, ret) ∧
      ret ≤ m.length ∧
      m1.length = m.length ∧
      (∀ i, i < end_ - begin → m1[result + i]? = some ((m.drop begin).take i).sum) ∧
      (0 < end_ - begin → m1[result]? = some 0) ∧
      (∀ p, p < result ∨ result + (end_ - begin) ≤ p → m1[p]? = m[p]?) ∧
      (begin = end_ → m1 = m) := by
  rcases Nat.eq_or_lt_of_le hrange with heq | hlt
  · refine ⟨m, result, by simp [Gpu.exclusive_scan, heq], by omega, rfl, ?_, ?_, ?_, ?_⟩
    · intro i hi; omega
    · intro h; omega
    · intro p _; rfl
    · intro _; rfl
  · obtain ⟨m1, hrun, hlen, hval, hframe⟩ :=
      Gpu.exclusive_scan_spec m begin end_ result hlt hin hout (by omega)
    have := hroom hlt
    refine ⟨m1, _, hrun, by omega, hlen, hval, ?_, hframe, ?_⟩
    · intro h
      have := hval 0 h
      simpa using this
    · intro h; omega

/-- Witness of C2: scanning the three cells `1, 2, 3` into the three cells behind them,
which one more cell follows. -/
theorem exclusive_scan_prefix_sums_witness :
    ∃ m1 ret, Gpu.exclusive_scan ([1, 2, 3, 9, 9, 9, 9] : List Int) 0 3 3 = some (m1, ret) ∧
      m1[3]? = some 0 ∧ m1[4]? = some 1 ∧ m1[5]? = some 3 ∧ m1[0]? = some 1 := by
  obtain ⟨m1, ret, hrun, _, _, hval, _, hframe, _⟩ :=
    exclusive_scan_prefix_sums ([1, 2, 3, 9, 9, 9, 9] : List Int) 0 3 3
      (by decide) (by decide) (by decide) (by decide) (by decide)
  exact ⟨m1, ret, hrun, hval 0 (by decide), hval 1 (by decide), hval 2 (by decide),
    hframe 0 (Or.inl (by decide))⟩

/-- C3 (failing input): for the one-element input at address 0 and the output buffer at
address 1, the host path of `exclusive_scan` writes one cell and returns address 3, two
past the cell it wrote, where `inclusive_scan` returns address 2 = `result + n`; for the
empty input it returns `result`. -/
theorem exclusive_scan_returns_past_end :
    Gpu.exclusive_scan ([5, 9] : List Int) 0 1 1 = some ([5, 0], 3) ∧
    Gpu.inclusive_scan ([5, 9] : List Int) 0 1 1 = some ([5, 5], 2) ∧
    Gpu.exclusive_scan ([5, 9] : List Int) 0 0 1 = some ([5, 9], 1) ∧
    Gpu.inclusive_scan ([5, 9] : List Int) 0 0 1 = some ([5, 9], 1) := by
  decide

/-- C4: for each direction tag, a source range `[begin, end)` inside the memory and a
destination buffer of `n = end - begin` cells disjoint from it, `copy` returns and the
first `n` destination cells equal the source cells in order, every cell outside those
`n` (the destination from index `n` on, and the source) is unchanged, and nothing is
written when `begin = end`. -/
theorem copy_elementwise {α : Type} (tag : Gpu.CopyTag) (m : List α)
    (begin end_ result : Nat) (hrange : begin ≤ end_) (hin : end_ ≤ m.length)
    (hout : result + (end_ - begin) ≤ m.length)
    (hsep : end_ ≤ result ∨ result + (end_ - begin) ≤ begin) :
    ∃ m1, Gpu.copy tag m begin end_ result = some m1 ∧
      m1.length = m.length ∧
      (∀ i, i < end_ - begin → m1[result + i]? = m[begin + i]?) ∧
      (∀ p, p < result ∨ result + (end_ - begin) ≤ p → m1[p]? = m[p]?) ∧
      (∀ i, i < end_ - begin → m1[begin + i]? = m[begin + i]?) ∧
      (begin = end_ → m1 = m) := by
  obtain ⟨m1, hrun, hlen, hval, hframe⟩ :=
    Gpu.memcpy_spec m result begin (end_ - begin) (by omega) hout (by omega)
  have hcopy : Gpu.copy tag m begin end_ result = some m1 := by
    cases tag <;> simp [Gpu.copy, Gpu.distance, hrange, hrun]
  refine ⟨m1, hcopy, hlen, hval, hframe, ?_, ?_⟩
  · intro i hi
    exact hframe (begin + i) (by omega)
  · intro h
    have h0 : end_ - begin = 0 := by omega
    rw [h0] at hrun
    exact Gpu.memcpy_zero m result begin m1 hrun

/-- Witness of C4: a device-to-host copy of two cells into a four-cell destination. -/
theorem copy_elementwise_witness :
    ∃ m1, Gpu.copy Gpu.CopyTag.deviceToHost ([1, 2, 7, 7, 7, 7] : List Int) 0 2 2 = some m1 ∧
      m1[2]? = some 1 ∧ m1[3]? = some 2 ∧ m1[4]? = some 7 ∧ m1[0]? = some 1 := by
  obtain ⟨m1, hrun, _, hval, hframe, hsrc, _⟩ :=
    copy_elementwise Gpu.CopyTag.deviceToHost ([1, 2, 7, 7, 7, 7] : List Int) 0 2 2
      (by decide) (by decide) (by decide) (by decide)
  exact ⟨m1, hrun, hval 0 (by decide), hval 1 (by decide), hframe 4 (Or.inr (by decide)),
    hsrc 0 (by decide)⟩

/-- C5: in the host build `copyAsync` yields, for every direction tag, memory, source
range and destination, exactly the result of `copy`: the same final memory when the call
is defined, and it is defined for the same arguments. -/
theorem copyAsync_eq_copy {α : Type} (tag : Gpu.CopyTag) (m : List α)
    (begin end_ result : Nat) :
    Gpu.copyAsync tag m begin end_ result = Gpu.copy tag m begin end_ result := by
  cases tag <;> rfl

/-! ## Handshake -/

/-- C9 (as stated, refuted for the local handshake): rank 1 computes that it must send
three bytes to rank 0, but with empty neighbor lists the local handshake completes on
both ranks with `Rcvs[1] = 0` on rank 0. -/
theorem doHandShakeLocal_not_symmetric :
    doHandShakeLocal oneWaySystem noNeighbors 0 = some ([0, 0], [0, 0]) ∧
    doHandShakeLocal oneWaySystem noNeighbors 1 = some ([3, 0], [0, 0]) ∧
    ([0, 0] : List Nat).getD 1 0 ≠ ([3, 0] : List Nat).getD 0 0 := by
  decide

theorem doHandShake_Rcvs_length (sys : List NotOurs) (A : Nat) :
    (doHandShake sys A).2.length = sys.length := by
  unfold doHandShake recordCounts
  simp only [foldl_set_length, List.length_replicate]

theorem getD_ext (l1 l2 : List Nat) (hlen : l1.length = l2.length)
    (h : ∀ i, i < l1.length → l1.getD i 0 = l2.getD i 0) : l1 = l2 := by
  apply List.ext_getElem hlen
  intro i h1 h2
  have := h i h1
  simp only [List.getD_eq_getElem?_getD, List.getElem?_eq_getElem h1,
    List.getElem?_eq_getElem h2, Option.getD_some] at this
  exact this

/-- On the model of the two handshakes: when the neighbor lists hold no rank twice, name
ranks mutually, and the list of every rank contains each rank that computed a nonzero
count for it, the local handshake completes on every rank with the `Snds` and `Rcvs`
vectors of the global handshake. -/
theorem doHandShakeLocal_agrees (sys : List NotOurs) (nbrs : List (List Nat)) (A : Nat)
    (hA : A < sys.length)
    (hnd : ∀ P, P < sys.length → (nbrs.getD P []).Nodup)
    (hsym : ∀ P, P < sys.length → ∀ Q ∈ nbrs.getD P [],
      Q < sys.length ∧ P ∈ nbrs.getD Q [])
    (hadeq : ∀ P, P < sys.length → ∀ Q, Q < sys.length → sendCount sys Q P ≠ 0 →
      Q ∈ nbrs.getD P []) :
    doHandShakeLocal sys nbrs A = some (doHandShake sys A) := by
  obtain ⟨ra, hra⟩ := doHandShakeLocal_completes sys nbrs A (hnd A hA) (hsym A hA)
  obtain ⟨h1, hlen, hga⟩ := doHandShakeLocal_value sys nbrs A ra hra
  rw [hra]
  have h2 : ra.2 = (doHandShake sys A).2 := by
    apply getD_ext
    · rw [hlen, doHandShake_Rcvs_length]
    · intro B hB
      rw [hlen] at hB
      rw [hga B, doHandShake_Rcvs sys A B hA hB]
      by_cases hmem : B ∈ nbrs.getD A []
      · rw [if_pos hmem]
      · rw [if_neg hmem]
        by_cases hc : sendCount sys B A = 0
        · exact hc.symm
        · exact absurd (hadeq A hA B hB hc) hmem
  have h3 : ra = (doHandShake sys A) := Prod.ext h1 h2
  rw [h3]

/-- C9 (amended): after the global handshake has run on every rank, `Rcvs[B]` on rank `A`
equals the `Snds[A]` rank `B` computed, for every pair of ranks. After the local handshake
has run to completion on ranks `A` and `B`, the same holds provided `B` is in the neighbor
list of `A` whenever `B` computed a nonzero count for `A`. -/
theorem handshake_symmetry (sys : List NotOurs) (nbrs : List (List Nat)) (A B : Nat)
    (hA : A < sys.length) (hB : B < sys.length) :
    (doHandShake sys A).2.getD B 0 = (doHandShake sys B).1.getD A 0 ∧
    (∀ ra rb, doHandShakeLocal sys nbrs A = some ra →
      doHandShakeLocal sys nbrs B = some rb →
      (sendCount sys B A ≠ 0 → B ∈ nbrs.getD A []) →
      ra.2.getD B 0 = rb.1.getD A 0) := by
  refine ⟨doHandShake_Rcvs sys A B hA hB, ?_⟩
  intro ra rb hra hrb hadeq
  obtain ⟨_, _, hga⟩ := doHandShakeLocal_value sys nbrs A ra hra
  obtain ⟨h2, _, _⟩ := doHandShakeLocal_value sys nbrs B rb hrb
  rw [h2, hga B]
  show _ = sendCount sys B A
  by_cases hmem : B ∈ nbrs.getD A []
  · rw [if_pos hmem]
  · rw [if_neg hmem]
    by_cases hc : sendCount sys B A = 0
    · exact hc.symm
    · exact absurd (hadeq hc) hmem

/-- Witness of C9: rank 1 sends three bytes to rank 0 and the two ranks name each other
as neighbors; the local handshake completes on both. -/
theorem handshake_symmetry_witness :
    (doHandShake oneWaySystem 0).2.getD 1 0 = (doHandShake oneWaySystem 1).1.getD 0 0 ∧
    doHandShakeLocal oneWaySystem mutualNeighbors 0 = some ([0, 0], [0, 3]) ∧
    doHandShakeLocal oneWaySystem mutualNeighbors 1 = some ([3, 0], [0, 0]) ∧
    (([0, 0], [0, 3]) : List Nat × List Nat).2.getD 1 0 =
      (([3, 0], [0, 0]) : List Nat × List Nat).1.getD 0 0 :=
  have h := handshake_symmetry oneWaySystem mutualNeighbors 0 1 (by decide) (by decide)
  ⟨h.1, by decide, by decide,
    h.2 ([0, 0], [0, 3]) ([3, 0], [0, 0]) (by decide) (by decide) (by decide)⟩

/-! ## Gpu containers: bin offsets and in-place scan -/

/-- C12 (as stated, refuted): on 32-bit unsigned counts `4294967295, 1, 1`, all
non-negative, the exclusive offsets are `0, 4294967295, 0`: the running sum wraps around,
the third offset lies below the second, and the ranges of the first and third bin
overlap. -/
theorem scans_wrap_around_uint32 :
    Gpu.exclusive_scan
        ([⟨4294967295, by decide⟩, ⟨1, by decide⟩, ⟨1, by decide⟩, ⟨9, by decide⟩,
          ⟨9, by decide⟩, ⟨9, by decide⟩, ⟨9, by decide⟩] :
          List (MachineInt ⟨Width.w32, false⟩)) 0 3 3 =
      some ([⟨4294967295, by decide⟩, ⟨1, by decide⟩, ⟨1, by decide⟩, ⟨0, by decide⟩,
          ⟨4294967295, by decide⟩, ⟨0, by decide⟩, ⟨9, by decide⟩], 7) ∧
    ¬ ((4294967295 : Int) ≤ 0) := by
  decide

/-- C12 (amended): for every fixed-width integer count type and every sequence of counts
`c[0..n)` scanned out of place (the output buffer having room for one more cell when
`n ≥ 1`; for a signed count type no partial sum of the counts overflowing), both scans
return, the inclusive scan at `i` is the exclusive scan at `i` plus `c[i]`, and the
exclusive scan at `i + 1` is the inclusive scan at `i`, in the arithmetic of the type.
When all counts are non-negative and their total is representable in the count type, the
exclusive offsets are non-decreasing, the range of bin `i` ends no later than the range
of any later bin starts, every range lies in `[0, total)`, and every position of
`[0, total)` lies in the range of some bin. -/
theorem scans_give_bin_offsets (t : IntType) (m : List (MachineInt t))
    (begin end_ result : Nat) (hrange : begin ≤ end_) (hin : end_ ≤ m.length)
    (hout : result + (end_ - begin) ≤ m.length)
    (hroom : begin < end_ → result + (end_ - begin) < m.length)
    (hsep : result + (end_ - begin) ≤ begin ∨ end_ ≤ result)
    (_hdef : t.signed = true → ∀ i, i ≤ end_ - begin →
      t.holds (((m.drop begin).take i).map fun c => c.value).sum) :
    ∃ me re mi ri, Gpu.exclusive_scan m begin end_ result = some (me, re) ∧
      Gpu.inclusive_scan m begin end_ result = some (mi, ri) ∧
      re ≤ m.length ∧ ri ≤ m.length ∧
      (∀ i, i < end_ - begin → ∃ e c, me[result + i]? = some e ∧ m[begin + i]? = some c ∧
        mi[result + i]? = some (e + c)) ∧
      (∀ i, i + 1 < end_ - begin → me[result + (i + 1)]? = mi[result + i]?) ∧
      ((∀ k, k < end_ - begin → ∀ c, m[begin + k]? = some c → 0 ≤ c.value) →
        t.holds (((m.drop begin).take (end_ - begin)).map fun c => c.value).sum →
        (∀ i j e1 e2, i ≤ j → j < end_ - begin → me[result + i]? = some e1 →
          me[result + j]? = some e2 → e1.value ≤ e2.value) ∧
        (∀ i j e1 c1 e2, i < j → j < end_ - begin → me[result + i]? = some e1 →
          m[begin + i]? = some c1 → me[result + j]? = some e2 →
          e1.value + c1.value ≤ e2.value) ∧
        (∀ i e c, i < end_ - begin → me[result + i]? = some e → m[begin + i]? = some c →
          0 ≤ e.value ∧
          e.value + c.value ≤
            (((m.drop begin).take (end_ - begin)).map fun c => c.value).sum) ∧
        (∀ x : Int, 0 ≤ x →
          x < (((m.drop begin).take (end_ - begin)).map fun c => c.value).sum →
          ∃ i e c, i < end_ - begin ∧ me[result + i]? = some e ∧ m[begin + i]? = some c ∧
            e.value ≤ x ∧ x < e.value + c.value)) := by
  obtain ⟨me, re, hrune, hre, _, hvale, _⟩ :=
    Gpu.exclusive_scan_values m begin end_ result hrange hin hout (by omega)
  obtain ⟨mi, ri, hruni, hri, _, hvali, _⟩ :=
    Gpu.inclusive_scan_values m begin end_ result hrange hin hout (by omega)
  have hstep : ∀ i, i < end_ - begin → ∃ c, m[begin + i]? = some c ∧
      ((m.drop begin).take (i + 1)).sum = ((m.drop begin).take i).sum + c := by
    intro i hi
    have hlt : begin + i < m.length := by omega
    exact ⟨m[begin + i], List.getElem?_eq_getElem hlt, Gpu.prefix_succ m begin i hlt⟩
  have hre2 : re ≤ m.length := by
    rw [hre]
    split
    · omega
    · have := hroom (by omega)
      omega
  refine ⟨me, re, mi, ri, hrune, hruni, hre2, by omega, ?_, ?_, ?_⟩
  · intro i hi
    obtain ⟨c, hc, hs⟩ := hstep i hi
    refine ⟨_, c, hvale i hi, hc, ?_⟩
    rw [hvali i hi, hs]
  · intro i hi
    rw [hvale (i + 1) hi, hvali i (by omega)]
  · intro hpos hsum
    obtain ⟨hposM, hP⟩ := machine_prefix t m begin (end_ - begin) (by omega) hpos hsum
    have hmono := Gpu.prefix_mono (m.map fun c => c.value) begin (end_ - begin)
      (by simp; omega) hposM
    have hmap : (((m.drop begin).take (end_ - begin)).map fun c => c.value) =
        ((m.map fun c => c.value).drop begin).take (end_ - begin) := by
      rw [List.map_take, List.map_drop]
    have hsuccM : ∀ i c, i < end_ - begin → m[begin + i]? = some c →
        (((m.map fun c => c.value).drop begin).take (i + 1)).sum =
          (((m.map fun c => c.value).drop begin).take i).sum + c.value := by
      intro i c hi hc
      have hlt : begin + i < (m.map fun c => c.value).length := by simp; omega
      rw [Gpu.prefix_succ (m.map fun c => c.value) begin i hlt]
      have hlt2 : begin + i < m.length := by omega
      rw [List.getElem?_eq_getElem hlt2] at hc
      simp only [Option.some.injEq] at hc
      rw [List.getElem_map, hc]
    refine ⟨?_, ?_, ?_, ?_⟩
    · intro i j e1 e2 hij hj h1 h2
      rw [hvale i (by omega)] at h1
      rw [hvale j hj] at h2
      cases h1
      cases h2
      rw [hP i (by omega), hP j (by omega)]
      exact hmono i j hij (by omega)
    · intro i j e1 c1 e2 hij hj h1 hc1 h2
      rw [hvale i (by omega)] at h1
      rw [hvale j hj] at h2
      cases h1
      cases h2
      rw [hP i (by omega), hP j (by omega), ← hsuccM i c1 (by omega) hc1]
      exact hmono (i + 1) j hij (by omega)
    · intro i e c hi h1 hc1
      rw [hvale i hi] at h1
      cases h1
      rw [hP i (by omega), hmap]
      constructor
      · have := hmono 0 i (Nat.zero_le i) (by omega)
        simpa using this
      · rw [← hsuccM i c hi hc1]
        exact hmono (i + 1) (end_ - begin) hi (le_refl _)
    · intro x hx hlt
      rw [hmap] at hlt
      obtain ⟨i, hi, h1, h2⟩ :=
        Gpu.prefix_cover (m.map fun c => c.value) begin x hx (end_ - begin) hlt
      obtain ⟨c, hc, _⟩ := hstep i hi
      refine ⟨i, _, c, hi, hvale i hi, hc, ?_, ?_⟩
      · rw [hP i (by omega)]
        exact h1
      · rw [hP i (by omega), ← hsuccM i c hi hc]
        exact h2

/-- Witness of C12: the 32-bit signed counts `2, 0, 3` give the offsets `0, 2, 2`; the
position 4 lies in the range of a bin. -/
theorem scans_give_bin_offsets_witness :
    ∃ me re mi ri,
      Gpu.exclusive_scan
        ([⟨2, by decide⟩, ⟨0, by decide⟩, ⟨3, by decide⟩, ⟨9, by decide⟩, ⟨9, by decide⟩,
          ⟨9, by decide⟩, ⟨9, by decide⟩] : List (MachineInt ⟨Width.w32, true⟩)) 0 3 3 =
        some (me, re) ∧
      Gpu.inclusive_scan
        ([⟨2, by decide⟩, ⟨0, by decide⟩, ⟨3, by decide⟩, ⟨9, by decide⟩, ⟨9, by decide⟩,
          ⟨9, by decide⟩, ⟨9, by decide⟩] : List (MachineInt ⟨Width.w32, true⟩)) 0 3 3 =
        some (mi, ri) ∧
      me[3 + (1 + 1)]? = mi[3 + 1]? ∧
      ∃ i e c, i < 3 - 0 ∧ me[3 + i]? = some e ∧
        ([⟨2, by decide⟩, ⟨0, by decide⟩, ⟨3, by decide⟩, ⟨9, by decide⟩, ⟨9, by decide⟩,
          ⟨9, by decide⟩, ⟨9, by decide⟩] : List (MachineInt ⟨Width.w32, true⟩))[0 + i]? =
          some c ∧
        e.value ≤ 4 ∧ 4 < e.value + c.value := by
  obtain ⟨me, re, mi, ri, h1, h2, _, _, _, h4, h5⟩ :=
    scans_give_bin_offsets ⟨Width.w32, true⟩
      [⟨2, by decide⟩, ⟨0, by decide⟩, ⟨3, by decide⟩, ⟨9, by decide⟩, ⟨9, by decide⟩,
        ⟨9, by decide⟩, ⟨9, by decide⟩] 0 3 3
      (by decide) (by decide) (by decide) (by decide) (by decide) (by decide)
  exact ⟨me, re, mi, ri, h1, h2, h4 1 (by decide),
    (h5 (by decide) (by decide)).2.2.2 4 (by decide) (by decide)⟩

/-- C13 (as stated, refuted): run in place on the `double` buffer `1.0, 1e16` the host path
leaves `a[1] = (1.0 + 1e16) - 1e16 = 0`, where the original `a[0]` is `1.0`. And on a
buffer that ends the memory (two cells of two) the iterator it returns, address 3, lies
beyond one past the end. -/
theorem exclusive_scan_in_place_double_inexact :
    Gpu.exclusive_scan ([⟨1⟩, ⟨10000000000000000⟩, ⟨7⟩] : List IntegralDouble) 0 2 0 =
      some ([⟨0⟩, ⟨0⟩, ⟨7⟩], 3) ∧
    (⟨0⟩ : IntegralDouble) ≠ ⟨1⟩ ∧
    Gpu.exclusive_scan ([3, 4] : List Int) 0 2 0 = some ([0, 3], 3) ∧
    ([3, 4] : List Int).length < 3 := by
  decide

/-- C13 (amended): for every value type in which `+` and `-` obey the laws of an additive
group (the integers, or a fixed-width integer type with its wrap-around arithmetic), and
every buffer that is followed by at least one more cell when it is not empty, the host
path of `exclusive_scan` run in place (`result == begin`) returns an iterator inside the
memory and leaves in cell `i` of the buffer the sum of the original cells `0 .. i-1`,
touching no cell outside the buffer; these are the values an out-of-place scan of the
original contents writes to any separate output buffer. -/
theorem exclusive_scan_in_place {α : Type} [AddGroup α] (m : List α) (begin end_ : Nat)
    (hrange : begin ≤ end_) (hin : end_ ≤ m.length)
    (hroom : begin < end_ → end_ < m.length) :
    ∃ m1 ret, Gpu.exclusive_scan m begin end_ begin = some (m1, ret) ∧
      ret ≤ m.length ∧
      m1.length = m.length ∧
      (∀ i, i < end_ - begin → m1[begin + i]? = some ((m.drop begin).take i).sum) ∧
      (∀ p, p < begin ∨ end_ ≤ p → m1[p]? = m[p]?) ∧
      ∀ result, result + (end_ - begin) ≤ m.length →
        (result + (end_ - begin) ≤ begin ∨ end_ ≤ result) →
        ∃ m2 ret2, Gpu.exclusive_scan m begin end_ result = some (m2, ret2) ∧
          ∀ i, i < end_ - begin → m1[begin + i]? = m2[result + i]? := by
  obtain ⟨m1, ret, hrun, hret, hlen, hval, hframe⟩ :=
    Gpu.exclusive_scan_values m begin end_ begin hrange hin (by omega) (Or.inl (le_refl _))
  have hret2 : ret ≤ m.length := by
    rw [hret]
    split
    · omega
    · have := hroom (by omega)
      omega
  refine ⟨m1, ret, hrun, hret2, hlen, hval, ?_, ?_⟩
  · intro p hp
    exact hframe p (by omega)
  · intro result hout hsep
    obtain ⟨m2, ret2, hrun2, _, _, hval2, _⟩ :=
      Gpu.exclusive_scan_values m begin end_ result hrange hin hout (by omega)
    refine ⟨m2, ret2, hrun2, ?_⟩
    intro i hi
    rw [hval i hi, hval2 i hi]

/-- Witness of C13: scanning the buffer `4, 1, 2` onto itself. -/
theorem exclusive_scan_in_place_witness :
    ∃ m1 ret, Gpu.exclusive_scan ([4, 1, 2, 9] : List Int) 0 3 0 = some (m1, ret) ∧
      m1[0]? = some 0 ∧ m1[1]? = some 4 ∧ m1[2]? = some 5 ∧ m1[3]? = some 9 := by
  obtain ⟨m1, ret, hrun, _, _, hval, hframe, _⟩ :=
    exclusive_scan_in_place ([4, 1, 2, 9] : List Int) 0 3 (by decide) (by decide)
      (by decide)
  exact ⟨m1, ret, hrun, hval 0 (by decide), hval 1 (by decide), hval 2 (by decide),
    hframe 3 (Or.inr (by decide))⟩

/-! ## Integer conversion: write/read round trip -/

/-- C14 (as stated, refuted): with `T` the 8-bit `std::int8_t`, a descriptor of non-native
byte order and `swapBytes` the byte reversal (which maps values of `T` to values of `T` and
is its own inverse), the values `1, -2, 100`, all representable in `T`, are written as the
bytes `0, 255, 0` and read back as `0, -1, 0`: the 8-bit value selects the 32-bit overload
of `swapBytes` and is truncated. -/
theorem readIntData_writeIntData_int8_swapped :
    (∀ v, IntType.holds ⟨Width.w8, true⟩ v →
      IntType.holds ⟨Width.w8, true⟩ (byteSwap ⟨Width.w8, true⟩ v) ∧
        byteSwap ⟨Width.w8, true⟩ (byteSwap ⟨Width.w8, true⟩ v) = v) ∧
    IntType.holds ⟨Width.w8, true⟩ 1 ∧ IntType.holds ⟨Width.w8, true⟩ (-2) ∧
    IntType.holds ⟨Width.w8, true⟩ 100 ∧
    writeIntData ⟨Width.w8, true⟩ byteSwap true ⟨4, IntDescriptor.Ordering.ReverseOrder⟩
      [1, -2, 100] 3 [] ⟨1, IntDescriptor.Ordering.NormalOrder⟩ = some [0, 255, 0] ∧
    readIntData ⟨Width.w32, true⟩ ⟨Width.w8, true⟩ byteSwap true
      ⟨4, IntDescriptor.Ordering.ReverseOrder⟩ [7, 7, 7] 3 [0, 255, 0]
      ⟨1, IntDescriptor.Ordering.NormalOrder⟩ = some ([0, -1, 0], []) :=
  ⟨fun v h => byteSwap_involutive _ v h, by decide, by decide, by decide, by decide,
    by decide⟩

/-- C14 (amended): for every on-disk type `T` of 16, 32 or 64 bits (the widths `swapBytes`
is declared for), and for an 8-bit `T` when `id` has the native byte order, every
in-memory type `Mem`, descriptor `id` and machine byte order, given that `swapBytes` maps
values of `T` to values of `T` and is its own inverse, `writeIntData<T, Mem>` appends
`n * sizeof (T)` bytes, and `readIntData<Mem, T>` under the same `id` consumes exactly
these bytes and stores, for every `j < n`, `data[j]` reduced to `T` and converted back to
`Mem`; this is `data[j]` itself whenever `data[j]` is representable in `T`. Elements from
index `n` on are left alone. -/
theorem readIntData_writeIntData (T Mem : IntType) (swapBytes : IntType → Int → Int)
    (littleEndian : Bool) (native id : IntDescriptor) (data buf : List Int) (n : Nat)
    (os tail : List Nat)
    (hT : T.width ≠ Width.w8 ∨ id.order = native.order)
    (hswap : ∀ v, T.holds v → T.holds (swapBytes T v) ∧ swapBytes T (swapBytes T v) = v)
    (hn : n ≤ data.length) (hb : n ≤ buf.length) :
    ∃ out, writeIntData T swapBytes littleEndian native data n os id = some (os ++ out) ∧
      out.length = n * T.bytes ∧
      ∃ buf1, readIntData Mem T swapBytes littleEndian native buf n (out ++ tail) id =
          some (buf1, tail) ∧
        buf1.length = buf.length ∧
        (∀ j d, j < n → data[j]? = some d → buf1[j]? = some (Mem.wrap (T.wrap d))) ∧
        (∀ j d, j < n → data[j]? = some d → T.holds d → Mem.holds d →
          buf1[j]? = some d) ∧
        (∀ p, n ≤ p → buf1[p]? = buf[p]?) := by
  have hw := writeIntData_loop_spec T swapBytes littleEndian
    (decide (id.order ≠ native.order)) data n 0 os (by omega)
  have hlen : (data.take n).length = n := by simp; omega
  have hwidth : decide (id.order ≠ native.order) = true → T.width ≠ Width.w8 := by
    intro hne
    rcases hT with h | h
    · exact h
    · exact absurd h (by simpa using hne)
  obtain ⟨buf1, hrun, hlen1, hget, hframe⟩ :=
    readIntData_loop_spec Mem T swapBytes littleEndian (decide (id.order ≠ native.order))
      hswap hwidth tail (data.take n) 0 buf (by omega)
  rw [hlen] at hrun hget hframe
  have hstored : ∀ j d, j < n → data[j]? = some d →
      buf1[j]? = some (Mem.wrap (T.wrap d)) := by
    intro j d hj hd
    have := hget j hj
    rw [Nat.zero_add, List.getElem?_take, if_pos hj, hd] at this
    simpa using this
  refine ⟨_, hw, ?_, buf1, hrun, hlen1, hstored, ?_, ?_⟩
  · rw [List.drop_zero, flatMap_length_const _ T.bytes (fun _ => toBytes_length T _ _), hlen]
  · intro j d hj hd hT hM
    rw [hstored j d hj hd, wrap_of_holds T d hT, wrap_of_holds Mem d hM]
  · intro p hp
    exact hframe p (Or.inr (by omega))

/-- Witness of C14: three `int` values written as byte-swapped `int16_t` on a
little-endian machine and read back. -/
theorem readIntData_writeIntData_witness :
    ∃ out buf1,
      writeIntData ⟨Width.w16, true⟩ byteSwap true ⟨4, IntDescriptor.Ordering.ReverseOrder⟩
        [1, -2, 70000] 3 [] ⟨2, IntDescriptor.Ordering.NormalOrder⟩ = some ([] ++ out) ∧
      readIntData ⟨Width.w32, true⟩ ⟨Width.w16, true⟩ byteSwap true
        ⟨4, IntDescriptor.Ordering.ReverseOrder⟩ [0, 0, 0, 9] 3 (out ++ [])
        ⟨2, IntDescriptor.Ordering.NormalOrder⟩ = some (buf1, []) ∧
      buf1[0]? = some 1 ∧ buf1[1]? = some (-2) ∧ buf1[2]? = some 4464 ∧
      buf1[3]? = some 9 := by
  obtain ⟨out, hw, _, buf1, hr, _, hconv, hsame, hrest⟩ :=
    readIntData_writeIntData ⟨Width.w16, true⟩ ⟨Width.w32, true⟩ byteSwap true
      ⟨4, IntDescriptor.Ordering.ReverseOrder⟩ ⟨2, IntDescriptor.Ordering.NormalOrder⟩
      [1, -2, 70000] [0, 0, 0, 9] 3 [] [] (Or.inl (by decide))
      (fun v h => byteSwap_involutive _ v h) (by decide) (by decide)
  refine ⟨out, buf1, hw, hr, ?_, ?_, ?_, ?_⟩
  · exact hsame 0 1 (by decide) rfl (by decide) (by decide)
  · exact hsame 1 (-2) (by decide) rfl (by decide) (by decide)
  · have := hconv 2 70000 (by decide) rfl
    rw [this]
    decide
  · exact hrest 3 (le_refl 3)

/-! ## Redistribution pass: conservation -/

end amrex
